import Mathlib

/-!
Verification of the riegeli transposed chunk encoder
(src/riegeli/chunk_encoding/transpose_encoder.cc) against its
natural-language specification.  The C++ functions relevant to the claims are
shallowly embedded as executable Lean definitions; machine integers are
modelled as `Nat` (with explicit bounds where overflow matters), byte
sequences as `List Nat`, hash maps as association lists, and fallible
operations as `Option`.
-/

namespace Riegeli


/-! ## Constants (transpose_encoder.cc) -/

/-- Maximum varint value encoded as an inline varint subtype
(`kMaxVarintInline`, transpose_encoder.cc line 56). -/
def kMaxVarintInline : Nat := 3

/-- Maximum recursion depth for submessage discovery
(`kMaxRecursionDepth`, transpose_encoder.cc line 64). -/
def kMaxRecursionDepth : Nat := 100

/-- Maximum transition value (`kMaxTransition`, transpose_encoder.cc
line 1229). -/
def kMaxTransition : Nat := 63

/-- Minimum transition count for a private-list state
(`kMinCountForState`, transpose_encoder.cc line 1232). -/
def kMinCountForState : Nat := 10

/-! ## Zero-run compaction of the transition stream
(`TransposeEncoder::WriteTransitions`, transpose_encoder.cc lines 716-847)

`WriteTransitions` produces a stream of raw transition offsets (one per
single-byte hop) and compacts them on the fly: it holds at most one pending
wire byte `last_transition`; a raw offset `w` is processed by

    if (write[j] == 0 && last_transition.has_value() &&
        (*last_transition & 3) < 3) { ++*last_transition; }
    else { if (last_transition.has_value()) WriteByte(*last_transition);
           last_transition = write[j] << 2; }

and at the end of the stream the pending byte, if any, is flushed
(lines 840-845).  The state below is (emitted bytes, pending byte). -/

/-- One step of the zero-run compaction loop (transpose_encoder.cc lines
776-789 and 818-831): `w` is the next raw transition offset. -/
def compactStep (acc : List Nat × Option Nat) (w : Nat) : List Nat × Option Nat :=
  match acc.2 with
  | some p =>
      if w = 0 ∧ p % 4 < 3 then (acc.1, some (p + 1))
      else (acc.1 ++ [p], some (w * 4))
  | none => (acc.1, some (w * 4))

/-- Flush of the final pending byte (transpose_encoder.cc lines 840-845). -/
def flushPending (acc : List Nat × Option Nat) : List Nat :=
  match acc.2 with
  | some p => acc.1 ++ [p]
  | none => acc.1

/-- The emitted transition byte stream of `WriteTransitions`, as a function
of the sequence of raw transition offsets it generates. -/
def writeTransitionsBytes (ws : List Nat) : List Nat :=
  flushPending (ws.foldl compactStep ([], none))

/-- Expansion of one wire byte back into raw offsets: offset `b / 4`
followed by `b % 4` zero-offset transitions. -/
def expandByte (b : Nat) : List Nat :=
  b / 4 :: List.replicate (b % 4) 0

/-- Expansion of a whole compacted stream. -/
def expandBytes (bs : List Nat) : List Nat :=
  (bs.map expandByte).flatten

/-- One step of the compaction rule exactly as the claim states it: a
pending byte absorbs a zero offset only when its run length is below 3 AND
its offset part is nonzero; any other transition first flushes the pending
byte.  (This differs from the code, which does not test the offset part.) -/
def claimCompactStep (acc : List Nat × Option Nat) (w : Nat) : List Nat × Option Nat :=
  match acc.2 with
  | some p =>
      if w = 0 ∧ p % 4 < 3 ∧ p / 4 ≠ 0 then (acc.1, some (p + 1))
      else (acc.1 ++ [p], some (w * 4))
  | none => (acc.1, some (w * 4))

/-- The transition byte stream that the claim's rule would emit. -/
def claimTransitionsBytes (ws : List Nat) : List Nat :=
  flushPending (ws.foldl claimCompactStep ([], none))

/-! ## Block layout of weighted state lists
(`TransposeEncoder::CreateStateMachine`, transpose_encoder.cc lines
1106-1117 and 1179-1188)

A list of `n` weighted items is laid out back to front in blocks of at most
`max_transition + 1` states.  The number of no-op routing states is

    noop_nodes = num_states <= max_transition + 1
                   ? 0 : (num_states - 2) / max_transition;

the initial (topmost) block size is `(num_states - 1) % (max_transition + 1)
+ 1` with `num_states` already including the no-ops, and after every block
except the last one, one no-op entry is pushed back into the queue. -/

/-- Number of no-op routing states inserted for `n` queued items
(transpose_encoder.cc lines 1106-1108 and 1179-1181). -/
def noopCount (m n : Nat) : Nat :=
  if n ≤ m + 1 then 0 else (n - 2) / m

/-- The block-creation loop (transpose_encoder.cc lines 1119-1158): `q` is
the number of entries currently in the priority queue, `bs` the size of the
block being created.  Each iteration consumes `bs` entries; if the queue is
nonempty afterwards one no-op entry is pushed and the next block has
`m + 1` states.  Returns the list of block sizes, topmost block first, or
`none` if the queue underflows (the code asserts this never happens). -/
def blocksAux (m : Nat) : Nat → Nat → Nat → Option (List Nat)
  | 0, _, _ => none
  | fuel + 1, q, bs =>
      if bs ≤ q then
        if q - bs = 0 then some [bs]
        else (blocksAux m fuel (q - bs + 1) (m + 1)).map (bs :: ·)
      else none

/-- Block sizes produced when laying out `n` weighted items with maximum
transition `m`, topmost (first-created) block first. -/
def layoutBlocks (m n : Nat) : Option (List Nat) :=
  blocksAux m (n + 1) n ((n + noopCount m n - 1) % (m + 1) + 1)

/-! ## Transition statistics
(`TransposeEncoder::CollectTransitionStatistics`, transpose_encoder.cc
lines 849-865)

The encoded-tag sequence is scanned from back to front; for `i` from
`size - 1` down to `1` the transition `encoded_tags_[i] →
encoded_tags_[i-1]` is recorded in `dest_info` and
`num_incoming_transitions[encoded_tags_[i-1]]` is incremented.  Afterwards,
if `num_incoming_transitions[encoded_tags_.back()]` is zero it is set
to 1. -/

/-- The recorded transitions of the encoded-tag sequence: the pair
`(l[i], l[i-1])` for every `i ≥ 1` (origin first, destination second). -/
def transPairs (l : List Nat) : List (Nat × Nat) :=
  l.tail.zip l

/-- The value of `num_incoming_transitions[t]` after
`CollectTransitionStatistics` on the encoded-tag sequence `l`, including
the final flooring of the entry for `l.back`. -/
def numIncoming (l : List Nat) (t : Nat) : Nat :=
  let raw := l.dropLast.count t
  match l.getLast? with
  | some lastTag => if t = lastTag ∧ raw = 0 then 1 else raw
  | none => 0

/-- The set of keys of `dest_info[t]` after statistics collection: the
distinct destinations of recorded transitions whose origin is `t`. -/
def destKeys (l : List Nat) (t : Nat) : List Nat :=
  (((transPairs l).filter (fun p => p.1 = t)).map Prod.snd).dedup

/-- Number of entries of `dest_info[encoded_tags_[0]]` at emission time:
`WriteStatesAndData` (transpose_encoder.cc lines 565-577) inserts one
phantom key `first_key + 1` exactly when the map has exactly one entry. -/
def frontDestCount (l : List Nat) : Nat :=
  match l.head? with
  | none => 0
  | some t =>
      let k := (destKeys l t).length
      if k = 1 then k + 1 else k

/-! ## Bucket packing
(`TransposeEncoder::AddBuffer`, transpose_encoder.cc lines 452-475, and
`TransposeEncoder::WriteBuffers`, lines 477-559)

`AddBuffer` receives the next buffer (with `force_new_bucket` set for the
first buffer of each kind and for the non-proto-lengths buffer); if
`force_new_bucket` holds or the buffer would cross `bucket_size`, and the
current bucket is non-empty, the current bucket is closed and a new one is
started; the buffer is then written into the current bucket.  After all
buffers, `WriteBuffers` closes the last bucket if it is non-empty.
The compressor state is modelled by the list of uncompressed buffer sizes
in the current bucket (`compressor_.writer()->pos()` is its sum); the pair
below is (closed buckets, current bucket). -/

/-- One `AddBuffer` call (transpose_encoder.cc lines 452-475):
`fs.1` is `force_new_bucket`, `fs.2` the size of the buffer. -/
def bucketStep (B : Nat) (st : List (List Nat) × List Nat) (fs : Bool × Nat) :
    List (List Nat) × List Nat :=
  if (fs.1 = true ∨ B < st.2.sum + fs.2) ∧ 0 < st.2.sum
  then (st.1 ++ [st.2], [fs.2])
  else (st.1, st.2 ++ [fs.2])

/-- Flags the first buffer of a kind with `force_new_bucket`
(`j == 0` in transpose_encoder.cc line 507). -/
def flagFirst : List Nat → List (Bool × Nat)
  | [] => []
  | s :: t => (true, s) :: t.map (fun x => (false, x))

/-- The flagged buffer stream of all kinds in order. -/
def withFlags (groups : List (List Nat)) : List (Bool × Nat) :=
  (groups.map flagFirst).flatten

/-- Closing of the final bucket (transpose_encoder.cc lines 530-539). -/
def finishBuckets (st : List (List Nat) × List Nat) : List (List Nat) :=
  if 0 < st.2.sum then st.1 ++ [st.2] else st.1

/-- The buckets produced by `WriteBuffers` for the buffer-size groups
`groups` (one group per buffer kind, in kind order, each sorted; the
non-proto-lengths buffer forms its own final group). -/
def writeBuffers (B : Nat) (groups : List (List Nat)) : List (List Nat) :=
  finishBuckets ((withFlags groups).foldl (bucketStep B) ([], []))

/-- A well-formed bucket: within the size bound, or a single oversized
buffer. -/
def goodBucket (B : Nat) (b : List Nat) : Prop :=
  b.sum ≤ B ∨ ∃ s, b = [s] ∧ B < s

/-! ## Priority-queue ordering
(`PriorityQueueEntry` and `operator<`, transpose_encoder.cc lines 118-139)

A queue entry is the pair (`dest_index`, `num_transitions`).  The state
machine builder pops entries from a `std::priority_queue`; run-to-run
variation (hash-map iteration feeds the queue in unspecified order) can
only permute the pushed entries, so reproducibility of the construction is
exactly the statement that the pop sequence is invariant under
permutations of the pushes. -/

/-- A priority-queue entry: `dest_index` and `num_transitions`. -/
abbrev PQEntry := Nat × Nat

/-- The strict order `operator<(PriorityQueueEntry, PriorityQueueEntry)`
(transpose_encoder.cc lines 132-139): sort by `num_transitions`
descending, ties broken by `dest_index` ascending. -/
def pqLt (a b : PQEntry) : Prop :=
  a.2 > b.2 ∨ (a.2 = b.2 ∧ a.1 < b.1)

instance : DecidableRel pqLt := fun a b => by
  unfold pqLt
  exact inferInstance

/-- Entry `a` is popped no later than entry `b`: `std::priority_queue`
pops maximal elements of `operator<` first. -/
def popsFirst (a b : PQEntry) : Prop :=
  pqLt b a ∨ a = b

instance : DecidableRel popsFirst := fun a b => by
  unfold popsFirst
  exact inferInstance

instance : IsTotal PQEntry popsFirst where
  total := by
    intro a b
    rcases a with ⟨a1, a2⟩
    rcases b with ⟨b1, b2⟩
    simp only [popsFirst, pqLt, Prod.mk.injEq]
    omega

instance : IsTrans PQEntry popsFirst where
  trans := by
    intro a b c hab hbc
    rcases a with ⟨a1, a2⟩
    rcases b with ⟨b1, b2⟩
    rcases c with ⟨c1, c2⟩
    simp only [popsFirst, pqLt, Prod.mk.injEq] at hab hbc ⊢
    omega

instance : IsAntisymm PQEntry popsFirst where
  antisymm := by
    intro a b hab hba
    rcases a with ⟨a1, a2⟩
    rcases b with ⟨b1, b2⟩
    simp only [popsFirst, pqLt, Prod.mk.injEq] at hab hba ⊢
    omega

/-- The sequence in which a priority queue holding the entries `l` pops
them all. -/
def popSequence (l : List PQEntry) : List PQEntry :=
  List.insertionSort popsFirst l

/-! ## Canonical varints

`IsProtoMessage` reads tags and values with `ReadCanonicalVarint32` and
`ReadCanonicalVarint64` (bytes/reader_utils.h, not part of the sources
under verification). -/

/-- The minimal LEB128 encoding of a natural number: 7 value bits per
byte, least significant group first, continuation bit `0x80` on every
byte but the last; minimality means the last byte is nonzero unless the
encoding is the single byte `0x00`. -/
def varintEnc (v : Nat) : List Nat :=
  if h : v < 128 then [v]
  else (128 + v % 128) :: varintEnc (v / 128)
termination_by v
decreasing_by
  exact Nat.div_lt_self (by omega) (by norm_num)

/-- Modelled from the spec: `ReadCanonicalVarint32` and
`ReadCanonicalVarint64` (bytes/reader_utils.h is not under src/) read a
varint of at most `n` bytes and fail on a non-minimal encoding, per
spec section 4.1: every varint must use the minimum number of bytes (no
redundant-continuation encodings).  `first` records whether the current
byte is the first of the varint; a terminating byte `0` is minimal only
in that position. -/
def readCanonVarintAux : Nat → Bool → List Nat → Option (Nat × List Nat)
  | 0, _, _ => none
  | _ + 1, _, [] => none
  | rem + 1, first, b :: rest =>
      if b < 128 then
        if b = 0 ∧ first = false then none else some (b, rest)
      else
        match readCanonVarintAux rem false rest with
        | some (v, rest') => some (b % 128 + 128 * v, rest')
        | none => none

/-- Modelled from the spec: `ReadCanonicalVarint32` (at most
`kMaxLengthVarint32 = 5` bytes). -/
def readCanonicalVarint32 (bytes : List Nat) : Option (Nat × List Nat) :=
  readCanonVarintAux 5 true bytes

/-- Modelled from the spec: `ReadCanonicalVarint64` (at most
`kMaxLengthVarint64 = 10` bytes). -/
def readCanonicalVarint64 (bytes : List Nat) : Option (Nat × List Nat) :=
  readCanonVarintAux 10 true bytes

/-! ## The canonical-protobuf validator
(`IsProtoMessage`, transpose_encoder.cc lines 76-116)

The loop pulls a canonical tag varint, requires `field = tag >> 3 ≥ 1`,
dispatches on the wire type (low 3 bits, standard protobuf numbering:
varint 0, fixed64 1, length-delimited 2, start-group 3, end-group 4,
fixed32 5), maintains the stack of started group field numbers, and
accepts when the input is exhausted with an empty stack.  The fuel
argument dominates the number of iterations (every iteration consumes at
least the one tag byte); `IsProtoMessage` supplies sufficient fuel. -/

def isProtoLoop : Nat → List Nat → List Nat → Bool
  | 0, _, _ => false
  | _ + 1, groups, [] => groups.isEmpty
  | fuel + 1, groups, b :: bs =>
      match readCanonicalVarint32 (b :: bs) with
      | none => false
      | some (tag, rest) =>
          if tag / 8 = 0 then false
          else
            match tag % 8 with
            | 0 =>
                match readCanonicalVarint64 rest with
                | none => false
                | some (_, rest') => isProtoLoop fuel groups rest'
            | 1 =>
                if 8 ≤ rest.length then isProtoLoop fuel groups (rest.drop 8)
                else false
            | 2 =>
                match readCanonicalVarint32 rest with
                | none => false
                | some (len, rest') =>
                    if len ≤ rest'.length then
                      isProtoLoop fuel groups (rest'.drop len)
                    else false
            | 3 => isProtoLoop fuel (tag / 8 :: groups) rest
            | 4 =>
                match groups with
                | [] => false
                | f :: groups' =>
                    if f = tag / 8 then isProtoLoop fuel groups' rest
                    else false
            | 5 =>
                if 4 ≤ rest.length then isProtoLoop fuel groups (rest.drop 4)
                else false
            | _ => false

/-- Whether `record` is a valid protocol buffer message in the canonical
encoding (`IsProtoMessage`, transpose_encoder.cc lines 76-116). -/
def IsProtoMessage (bytes : List Nat) : Bool :=
  isProtoLoop (bytes.length + 1) [] bytes

/-- The declarative grammar of canonically encoded protobuf byte ranges,
relative to the stack of currently open group field numbers: every
varint (tag or value) appears as its minimal canonical encoding, every
field number is at least 1, every length-delimited payload is present
with exactly its declared byte count, only the six known wire types
occur, and start-group/end-group tags nest with matching field numbers,
the stack being empty at both ends. -/
inductive ValidProto : List Nat → List Nat → Prop
  | done : ValidProto [] []
  | varintField (gs : List Nat) (tag v : Nat) (rest : List Nat) :
      1 ≤ tag / 8 → tag % 8 = 0 →
      (varintEnc tag).length ≤ 5 → (varintEnc v).length ≤ 10 →
      ValidProto gs rest →
      ValidProto gs (varintEnc tag ++ (varintEnc v ++ rest))
  | fixed64Field (gs : List Nat) (tag : Nat) (payload rest : List Nat) :
      1 ≤ tag / 8 → tag % 8 = 1 → (varintEnc tag).length ≤ 5 →
      payload.length = 8 → ValidProto gs rest →
      ValidProto gs (varintEnc tag ++ (payload ++ rest))
  | lengthDelimitedField (gs : List Nat) (tag : Nat) (payload rest : List Nat) :
      1 ≤ tag / 8 → tag % 8 = 2 → (varintEnc tag).length ≤ 5 →
      (varintEnc payload.length).length ≤ 5 → ValidProto gs rest →
      ValidProto gs
        (varintEnc tag ++ (varintEnc payload.length ++ (payload ++ rest)))
  | startGroupField (gs : List Nat) (tag : Nat) (rest : List Nat) :
      1 ≤ tag / 8 → tag % 8 = 3 → (varintEnc tag).length ≤ 5 →
      ValidProto (tag / 8 :: gs) rest →
      ValidProto gs (varintEnc tag ++ rest)
  | endGroupField (gs : List Nat) (tag : Nat) (rest : List Nat) :
      1 ≤ tag / 8 → tag % 8 = 4 → (varintEnc tag).length ≤ 5 →
      ValidProto gs rest →
      ValidProto (tag / 8 :: gs) (varintEnc tag ++ rest)
  | fixed32Field (gs : List Nat) (tag : Nat) (payload rest : List Nat) :
      1 ≤ tag / 8 → tag % 8 = 5 → (varintEnc tag).length ≤ 5 →
      payload.length = 4 → ValidProto gs rest →
      ValidProto gs (varintEnc tag ++ (payload ++ rest))

/-! ## The encoder state and record ingestion
(`TransposeEncoder::AddRecordInternal`, transpose_encoder.cc lines
235-283, and `TransposeEncoder::AddMessage`, lines 325-450)

The encoder state collects the fields of `TransposeEncoder` (and its
`ChunkEncoder` base: `healthy`/`status`, `num_records_`,
`decoded_data_size_`) that ingestion touches.  Hash maps become
association lists (the code only ever looks nodes up by key), `Chain`
buffers become byte lists, and each `ChainBackwardWriter` prepends.
In-memory chain writers cannot fail, so their `Fail(...)` branches are
unreachable; the short-read `CopyTo` failures (possible only for records
that did not validate, hence unreachable behind `IsProtoMessage`) are
modelled as a non-resource-exhausted failure, and the
`RIEGELI_ASSERT_UNREACHABLE` branches return `false` with the state
unchanged. -/

/-- Error kinds distinguished by the claims: the resource-exhausted
errors raised by the record-count and size limits versus every other
failure (bad writer, bad compressor, bad sink). -/
inductive EncError where
  | resourceExhausted
  | other
deriving DecidableEq

/-- Modelled from the spec: the reserved message ids of
transpose_internal.h (not under src/).  The spec fixes their existence,
not their numeric values; user ids start at `kRoot + 1`. -/
def kNoOp : Nat := 0

/-- Modelled from the spec: reserved message id for non-proto records. -/
def kNonProto : Nat := 1

/-- Modelled from the spec: reserved message id for start of message. -/
def kStartOfMessage : Nat := 2

/-- Modelled from the spec: reserved message id for start of
submessage. -/
def kStartOfSubmessage : Nat := 3

/-- Modelled from the spec: the root message id; `next_message_id_`
starts at `kRoot + 1`. -/
def kRoot : Nat := 4

/-- Modelled from the spec: subtype values of transpose_internal.h (not
under src/), chosen distinct; `kVarintInline0 + v` for `v ≤ 3` and
`kVarint1 + (n - 1)` for `n ≤ 10` byte varints, as used by
`AddMessage`. -/
def kTrivial : Nat := 0

/-- Modelled from the spec: first inline-varint subtype. -/
def kVarintInline0 : Nat := 1

/-- Modelled from the spec: subtype of a one-byte buffered varint. -/
def kVarint1 : Nat := 5

/-- Modelled from the spec: subtype of an opaque length-delimited
string. -/
def kLengthDelimitedString : Nat := 15

/-- Modelled from the spec: subtype marking the start of a submessage. -/
def kLengthDelimitedStartOfSubmessage : Nat := 16

/-- Modelled from the spec: subtype marking the end of a submessage. -/
def kLengthDelimitedEndOfSubmessage : Nat := 17

/-- A node id: (parent message id, tag). -/
abbrev NodeId := Nat × Nat

/-- The per-node registry entry (`TransposeEncoder::MessageNode`): the
allocated child message id, the subtype-indexed encoded-tag positions
(`kInvalidPos` becomes `none`), and whether the node's buffer writer has
been created. -/
structure MessageNode where
  messageId : Nat
  encodedTagPos : List (Option Nat)
  hasWriter : Bool
deriving DecidableEq

/-- The buffer kinds (`TransposeEncoder::BufferType`). -/
inductive BufferType where
  | varint
  | fixed32
  | fixed64
  | string
  | nonProto
deriving DecidableEq

/-- The ingestion-relevant state of `TransposeEncoder`. -/
structure EncoderState where
  healthy : Bool
  lastError : Option EncError
  numRecords : Nat
  decodedDataSize : Nat
  encodedTags : List Nat
  tagsList : List (NodeId × Nat)
  messageNodes : List (NodeId × MessageNode)
  nextMessageId : Nat
  groupStack : List Nat
  dataVarint : List (NodeId × List Nat)
  dataFixed32 : List (NodeId × List Nat)
  dataFixed64 : List (NodeId × List Nat)
  dataString : List (NodeId × List Nat)
  dataNonProto : List (NodeId × List Nat)
  nonprotoLengths : List Nat
deriving DecidableEq

/-- The state of a freshly constructed encoder. -/
def initState : EncoderState :=
  ⟨true, none, 0, 0, [], [], [], kRoot + 1, [], [], [], [], [], [], []⟩

/-- Association-list lookup (stands in for `absl::flat_hash_map::find`). -/
def lookupA {α β : Type} [DecidableEq α] : List (α × β) → α → Option β
  | [], _ => none
  | (k, v) :: t, key => if k = key then some v else lookupA t key

/-- Association-list update of an existing key. -/
def updateA {α β : Type} [DecidableEq α] (l : List (α × β)) (key : α)
    (f : β → β) : List (α × β) :=
  l.map (fun p => if p.1 = key then (p.1, f p.2) else p)

/-- The buffer list of one kind. -/
def getData (st : EncoderState) : BufferType → List (NodeId × List Nat)
  | BufferType.varint => st.dataVarint
  | BufferType.fixed32 => st.dataFixed32
  | BufferType.fixed64 => st.dataFixed64
  | BufferType.string => st.dataString
  | BufferType.nonProto => st.dataNonProto

/-- Replaces the buffer list of one kind. -/
def setData (st : EncoderState) (t : BufferType)
    (l : List (NodeId × List Nat)) : EncoderState :=
  match t with
  | BufferType.varint => { st with dataVarint := l }
  | BufferType.fixed32 => { st with dataFixed32 := l }
  | BufferType.fixed64 => { st with dataFixed64 := l }
  | BufferType.string => { st with dataString := l }
  | BufferType.nonProto => { st with dataNonProto := l }

/-- `TransposeEncoder::GetNode` (transpose_encoder.cc lines 312-319):
interns the node id, allocating a fresh message id on first
encounter. -/
def getNode (st : EncoderState) (nid : NodeId) : EncoderState × MessageNode :=
  match lookupA st.messageNodes nid with
  | some node => (st, node)
  | none =>
      let node : MessageNode := ⟨st.nextMessageId, [], false⟩
      ({ st with
          messageNodes := st.messageNodes ++ [(nid, node)],
          nextMessageId := st.nextMessageId + 1 }, node)

/-- `TransposeEncoder::GetPosInTagsList` (transpose_encoder.cc lines
297-310): interns the (node, subtype) pair to its dense index in
`tags_list_`.  The node must already be registered (callers always call
`GetNode` first). -/
def getPosInTagsList (st : EncoderState) (nid : NodeId) (subtype : Nat) :
    EncoderState × Nat :=
  match lookupA st.messageNodes nid with
  | none => (st, 0)
  | some node =>
      let pos :=
        if node.encodedTagPos.length ≤ subtype then
          node.encodedTagPos ++
            List.replicate (subtype + 1 - node.encodedTagPos.length) none
        else node.encodedTagPos
      match pos.getD subtype none with
      | some ret => (st, ret)
      | none =>
          let ret := st.tagsList.length
          ({ st with
              messageNodes := updateA st.messageNodes nid
                (fun n => { n with encodedTagPos := pos.set subtype (some ret) }),
              tagsList := st.tagsList ++ [(nid, subtype)] }, ret)

/-- Interns the (node, subtype) pair and appends its index to
`encoded_tags_` (the `encoded_tags_.push_back(GetPosInTagsList(...))`
idiom). -/
def pushTag (st : EncoderState) (nid : NodeId) (subtype : Nat) : EncoderState :=
  let r := getPosInTagsList st nid subtype
  { r.1 with encodedTags := r.1.encodedTags ++ [r.2] }

/-- `TransposeEncoder::GetBuffer` (transpose_encoder.cc lines 285-295):
creates the node's backward writer (and its buffer entry in `data_`) on
first use. -/
def getBuffer (st : EncoderState) (nid : NodeId) (t : BufferType) : EncoderState :=
  match lookupA st.messageNodes nid with
  | none => st
  | some node =>
      if node.hasWriter then st
      else
        { setData st t (getData st t ++ [(nid, [])]) with
            messageNodes := updateA st.messageNodes nid
              (fun n => { n with hasWriter := true }) }

/-- A write through the node's backward writer: the chunk is prepended
to the node's buffer. -/
def writeToBuffer (st : EncoderState) (nid : NodeId) (t : BufferType)
    (bytes : List Nat) : EncoderState :=
  let st := getBuffer st nid t
  setData st t (updateA (getData st t) nid (fun buf => bytes ++ buf))

/-- Modelled from the spec: the non-canonical varint readers
`ReadVarint32`/`CopyVarint64` (bytes/reader_utils.h, not under src/)
used by `AddMessage` on already validated input; returns the raw varint
bytes and the remaining input. -/
def readVarintRaw : Nat → List Nat → Option (List Nat × List Nat)
  | 0, _ => none
  | _ + 1, [] => none
  | rem + 1, b :: rest =>
      if b < 128 then some ([b], rest)
      else
        match readVarintRaw rem rest with
        | some (raw, rest') => some (b :: raw, rest')
        | none => none

/-- The value of a raw little-endian base-128 byte group sequence. -/
def varintValue (raw : List Nat) : Nat :=
  raw.foldr (fun b acc => b % 128 + 128 * acc) 0

/-- A `Fail(*buffer)`-style failure: latches the encoder unhealthy with a
non-resource-exhausted error. -/
def failWriter (st : EncoderState) : Bool × EncoderState :=
  (false, { st with healthy := false, lastError := some EncError.other })

/-- `TransposeEncoder::AddMessage` (transpose_encoder.cc lines 325-450):
ingests the wire entries of a validated message, interning encoded tags
and routing value bytes into per-node buffers; start-group pushes the
parent and continues with the node's child id, end-group pops;
sufficiently long length-delimited payloads that validate are recursed
into between start/end-of-submessage markers (the end marker is interned
before the recursion).  `fuel` dominates the iteration count; branches
the validator has excluded return `false` (assertions) or latch a
writer failure. -/
def addMessage : Nat → EncoderState → List Nat → Nat → Nat → Bool × EncoderState
  | 0, st, _, _, _ => (false, st)
  | _ + 1, st, [], _, _ => (true, st)
  | fuel + 1, st, b :: bs, parent, depth =>
      match readVarintRaw 5 (b :: bs) with
      | none => (false, st)
      | some (tagRaw, rest) =>
          let tag := varintValue tagRaw
          let st1 := (getNode st (parent, tag)).1
          let childId := ((getNode st (parent, tag)).2).messageId
          match tag % 8 with
          | 0 =>
              match readVarintRaw 10 rest with
              | none => (false, st1)
              | some (valRaw, rest') =>
                  if valRaw.headD 0 ≤ kMaxVarintInline then
                    addMessage fuel
                      (pushTag st1 (parent, tag) (kVarintInline0 + valRaw.headD 0))
                      rest' parent depth
                  else
                    addMessage fuel
                      (writeToBuffer
                        (pushTag st1 (parent, tag) (kVarint1 + (valRaw.length - 1)))
                        (parent, tag) BufferType.varint (valRaw.map (· % 128)))
                      rest' parent depth
          | 1 =>
              if 8 ≤ rest.length then
                addMessage fuel
                  (writeToBuffer (pushTag st1 (parent, tag) kTrivial)
                    (parent, tag) BufferType.fixed64 (rest.take 8))
                  (rest.drop 8) parent depth
              else failWriter (pushTag st1 (parent, tag) kTrivial)
          | 2 =>
              match readVarintRaw 5 rest with
              | none => (false, st1)
              | some (lenRaw, rest2) =>
                  let len := varintValue lenRaw
                  if depth < kMaxRecursionDepth ∧ len ≠ 0 ∧
                      IsProtoMessage (rest2.take len) = true then
                    let st2 := pushTag st1 (parent, tag)
                      kLengthDelimitedStartOfSubmessage
                    let st3 := (getPosInTagsList st2 (parent, tag)
                      kLengthDelimitedEndOfSubmessage).1
                    let endIdx := (getPosInTagsList st2 (parent, tag)
                      kLengthDelimitedEndOfSubmessage).2
                    match addMessage fuel st3 (rest2.take len) childId (depth + 1) with
                    | (false, st4) => (false, st4)
                    | (true, st4) =>
                        addMessage fuel
                          { st4 with encodedTags := st4.encodedTags ++ [endIdx] }
                          (rest2.drop len) parent depth
                  else
                    let st2 := pushTag st1 (parent, tag) kLengthDelimitedString
                    if len ≤ rest2.length then
                      addMessage fuel
                        (writeToBuffer st2 (parent, tag) BufferType.string
                          (lenRaw ++ rest2.take len))
                        (rest2.drop len) parent depth
                    else failWriter st2
          | 3 =>
              let st2 := pushTag st1 (parent, tag) kTrivial
              addMessage fuel
                { st2 with groupStack := parent :: st2.groupStack }
                rest childId (depth + 1)
          | 4 =>
              match st1.groupStack with
              | [] => (false, st1)
              | p :: stack' =>
                  let st2 := pushTag st1 (parent, tag) kTrivial
                  addMessage fuel { st2 with groupStack := stack' }
                    rest p (depth - 1)
          | 5 =>
              if 4 ≤ rest.length then
                addMessage fuel
                  (writeToBuffer (pushTag st1 (parent, tag) kTrivial)
                    (parent, tag) BufferType.fixed32 (rest.take 4))
                  (rest.drop 4) parent depth
              else failWriter (pushTag st1 (parent, tag) kTrivial)
          | _ => (false, st1)

/-- `TransposeEncoder::AddRecordInternal` (transpose_encoder.cc lines
235-283): fails fast when unhealthy; enforces the record-count limit and
the 64-bit cumulative decoded-size limit with resource-exhausted errors
before any mutation; then counts the record and routes it through
`AddMessage` (valid canonical protos) or into the non-proto buffers.
`maxRecords` stands for `kMaxNumRecords` (chunk_encoding/constants.h is
not under src/; the spec gives the limit no numeric value). -/
def addRecordInternal (maxRecords : Nat) (st : EncoderState)
    (record : List Nat) : Bool × EncoderState :=
  if st.healthy = false then (false, st)
  else if st.numRecords = maxRecords then
    (false,
      { st with
          healthy := false, lastError := some EncError.resourceExhausted })
  else if 2 ^ 64 - 1 - st.decodedDataSize < record.length then
    (false,
      { st with
          healthy := false, lastError := some EncError.resourceExhausted })
  else
    let st :=
      { st with
          numRecords := st.numRecords + 1,
          decodedDataSize := st.decodedDataSize + record.length }
    if IsProtoMessage record then
      let st := (getNode st (kStartOfMessage, 0)).1
      let st := pushTag st (kStartOfMessage, 0) kTrivial
      addMessage (record.length + 1) st record kRoot 0
    else
      let st := (getNode st (kNonProto, 0)).1
      let st := pushTag st (kNonProto, 0) kTrivial
      let st := writeToBuffer st (kNonProto, 0) BufferType.nonProto record
      (true,
        { st with
            nonprotoLengths := varintEnc record.length ++ st.nonprotoLengths })

/-- `TransposeEncoder::EncodeAndCloseInternal` (transpose_encoder.cc
lines 1242-1308): the unhealthy check precedes every write to `dest`;
the remainder of the pipeline (closing the writers, building the state
machine, serializing and compressing) is abstracted by the function
`rest`, evaluated only on the healthy path. -/
def encodeAndCloseInternal (rest : EncoderState → List Nat)
    (st : EncoderState) (dest : List Nat) : Bool × List Nat :=
  if st.healthy = false then (false, dest)
  else (true, dest ++ rest st)

/-! ## Helper lemmas for the zero-run compaction -/

/-- Expanding the flushed stream after one compaction step appends exactly
the raw offset just consumed. -/
lemma expandBytes_compactStep (l : List Nat) (p : Option Nat) (w : Nat) :
    expandBytes (flushPending (compactStep (l, p) w)) =
      expandBytes (flushPending (l, p)) ++ [w] := by
  cases p with
  | none =>
      simp [compactStep, flushPending, expandBytes, expandByte]
  | some p =>
      by_cases hw : w = 0 ∧ p % 4 < 3
      · obtain ⟨hw0, hp3⟩ := hw
        have h1 : (p + 1) / 4 = p / 4 := by omega
        have h2 : (p + 1) % 4 = p % 4 + 1 := by omega
        subst hw0
        simp [compactStep, hp3, flushPending, expandBytes, expandByte, h1, h2,
          List.replicate_succ']
      · simp [compactStep, hw, flushPending, expandBytes, expandByte]

/-- Expanding the compacted stream recovers the raw offsets, for any
starting accumulator. -/
lemma expandBytes_foldl (ws : List Nat) :
    ∀ l p, expandBytes (flushPending (ws.foldl compactStep (l, p))) =
      expandBytes (flushPending (l, p)) ++ ws := by
  induction ws with
  | nil => intro l p; simp
  | cons w ws ih =>
      intro l p
      have hstep := expandBytes_compactStep l p w
      calc expandBytes (flushPending (((w :: ws).foldl compactStep (l, p))) )
          = expandBytes (flushPending (ws.foldl compactStep (compactStep (l, p) w))) := by
            simp [List.foldl_cons]
        _ = expandBytes (flushPending (compactStep (l, p) w)) ++ ws := by
            rcases hcs : compactStep (l, p) w with ⟨l', p'⟩
            rw [ih l' p']
        _ = expandBytes (flushPending (l, p)) ++ [w] ++ ws := by rw [hstep]
        _ = expandBytes (flushPending (l, p)) ++ (w :: ws) := by simp

/-- Byte-shape invariant of the compaction loop: all emitted bytes and the
pending byte have offset part at most 63 and run part at most 3. -/
lemma compact_foldl_shape (ws : List Nat) :
    ∀ l p, (∀ w ∈ ws, w ≤ 63) →
      (∀ b ∈ l, b / 4 ≤ 63 ∧ b % 4 ≤ 3) →
      (∀ x, p = some x → x / 4 ≤ 63 ∧ x % 4 ≤ 3) →
      ∀ b ∈ flushPending (ws.foldl compactStep (l, p)), b / 4 ≤ 63 ∧ b % 4 ≤ 3 := by
  induction ws with
  | nil =>
      intro l p _ hl hp b hb
      cases p with
      | none => exact hl b (by simpa [flushPending] using hb)
      | some x =>
          simp only [flushPending, List.foldl_nil] at hb
          rcases List.mem_append.mp hb with h | h
          · exact hl b h
          · simp at h; subst h; exact hp b rfl
  | cons w ws ih =>
      intro l p hws hl hp
      have hw : w ≤ 63 := hws w (by simp)
      have hws' : ∀ v ∈ ws, v ≤ 63 := fun v hv => hws v (by simp [hv])
      simp only [List.foldl_cons]
      rcases p with _ | x
      · have hcs : compactStep (l, none) w = (l, some (w * 4)) := rfl
        rw [hcs]
        refine ih l (some (w * 4)) hws' hl ?_
        intro x hx
        cases hx
        constructor
        · simpa [Nat.mul_div_cancel] using hw
        · simp [Nat.mul_mod_left]
      · by_cases hc : w = 0 ∧ x % 4 < 3
        · have hcs : compactStep (l, some x) w = (l, some (x + 1)) := by
            simp [compactStep, hc]
          rw [hcs]
          have hx := hp x rfl
          refine ih l (some (x + 1)) hws' hl ?_
          intro y hy
          cases hy
          constructor
          · omega
          · omega
        · have hcs : compactStep (l, some x) w = (l ++ [x], some (w * 4)) := by
            simp only [compactStep]
            rw [if_neg hc]
          rw [hcs]
          refine ih (l ++ [x]) (some (w * 4)) hws' ?_ ?_
          · intro b hb
            rcases List.mem_append.mp hb with h | h
            · exact hl b h
            · simp at h; subst h; exact hp b rfl
          · intro y hy
            cases hy
            constructor
            · simpa [Nat.mul_div_cancel] using hw
            · simp [Nat.mul_mod_left]

/-- The claim's compaction rule and the code's compaction rule disagree on
the raw offset stream `[0, 0]`: the code's pending byte for a zero offset
absorbs the following zero offset even though its offset part is zero. -/
theorem writeTransitions_pending_byte_cex :
    writeTransitionsBytes [0, 0] = [1] ∧
    claimTransitionsBytes [0, 0] = [0, 0] ∧
    writeTransitionsBytes [0, 0] ≠ claimTransitionsBytes [0, 0] := by
  decide

/-- C4 (amended): every wire byte emitted by the zero-run compaction of
`WriteTransitions` is `(offset <<< 2) ||| run` with `offset ≤ 63` and
`run ∈ [0, 3]`, a pending byte with run length below 3 absorbs an
immediately following zero-offset transition regardless of its offset
part, any other transition flushes the pending byte first, and the final
pending byte is flushed at end of stream; equivalently, expanding every
emitted byte `b` into offset `b / 4` followed by `b % 4` zero offsets
recovers exactly the raw transition sequence. -/
theorem writeTransitions_zero_run_compaction (ws : List Nat) :
    expandBytes (writeTransitionsBytes ws) = ws ∧
    ((∀ w ∈ ws, w ≤ 63) →
      ∀ b ∈ writeTransitionsBytes ws, b / 4 ≤ 63 ∧ b % 4 ≤ 3) := by
  constructor
  · have h := expandBytes_foldl ws [] none
    simpa [writeTransitionsBytes, flushPending, expandBytes] using h
  · intro hws
    exact compact_foldl_shape ws [] none hws (by simp) (by simp)

/-- Closed-form instance of the amended C4 theorem at the raw offset
stream `[0, 0, 5, 0]`. -/
theorem writeTransitions_zero_run_compaction_witness :
    expandBytes (writeTransitionsBytes [0, 0, 5, 0]) = [0, 0, 5, 0] ∧
    ∀ b ∈ writeTransitionsBytes [0, 0, 5, 0], b / 4 ≤ 63 ∧ b % 4 ≤ 3 :=
  ⟨(writeTransitions_zero_run_compaction [0, 0, 5, 0]).1,
   (writeTransitions_zero_run_compaction [0, 0, 5, 0]).2 (by decide)⟩

/-! ## Theorems about transition statistics -/

/-- C2: after `CollectTransitionStatistics` over a non-empty encoded-tag
sequence, the tag at the front of the ingestion order (the first element
appended to `encoded_tags_`) has `num_incoming_transitions` at least 1:
when the sequence has length at least 2 its front occurs among the
destinations of the reverse scan, and when it is a singleton the front
coincides with `encoded_tags_.back()`, whose count is floored at 1. -/
theorem collect_statistics_front_incoming_positive (x : Nat) (rest : List Nat) :
    1 ≤ numIncoming (x :: rest) x := by
  cases rest with
  | nil => simp [numIncoming]
  | cons y ys =>
      have h1 : (x :: y :: ys).dropLast = x :: (y :: ys).dropLast := rfl
      have hc : (x :: (y :: ys).dropLast).count x ≠ 0 := by
        simp [List.count_cons]
      unfold numIncoming
      rw [h1]
      cases hl : (x :: y :: ys).getLast? with
      | none => simp at hl
      | some lastTag =>
          simp only []
          split
          · omega
          · omega

/-- For the non-empty record sequence consisting of one empty record (a
valid canonical proto message), the encoded-tag sequence is the
singleton `[0]` (the start-of-message tag): no transition leaves the
front tag, the phantom-key fixup of `WriteStatesAndData` (which fires
only on maps of size exactly 1) does not apply, and the front state has
zero outgoing `dest_info` entries at emission time — not at least 2 as
the claim states. -/
theorem front_state_outgoing_cex :
    (addRecordInternal 1 initState []).2.encodedTags = [0] ∧
    frontDestCount [0] = 0 ∧ ¬ 2 ≤ frontDestCount [0] := by
  decide

/-- C3 (amended): at emission time the state representing the first
encoded tag never has exactly one `dest_info` entry: a phantom extra key
is inserted exactly when it would otherwise have exactly one, yielding at
least 2 entries in that case; it can, however, have zero entries (when no
transition leaves it). -/
theorem front_state_never_one_outgoing (x : Nat) (rest : List Nat) :
    frontDestCount (x :: rest) ≠ 1 ∧
    ((destKeys (x :: rest) x).length = 1 → 2 ≤ frontDestCount (x :: rest)) := by
  simp only [frontDestCount, List.head?]
  constructor
  · split
    · omega
    · assumption
  · intro h
    simp [h]

/-- Closed-form instance of the amended C3 theorem on the encoded-tag
sequence `[0, 0]`, whose front tag has exactly one outgoing destination
before the fixup and two afterwards. -/
theorem front_state_never_one_outgoing_witness :
    (destKeys [0, 0] 0).length = 1 ∧ 2 ≤ frontDestCount [0, 0] :=
  ⟨by decide, (front_state_never_one_outgoing 0 [0]).2 (by decide)⟩

/-! ## Theorems about the block layout -/

/-- With `max_transition = 63` and `n = 65` queued items, the layout
inserts one no-op (as the claim states) but the topmost block has 2
states, not `((n - 1) mod (MAX_TRANSITION + 1)) + 1 = 1` as the claim
computes it: the code takes the modulus after adding the no-op states. -/
theorem layout_top_block_cex :
    layoutBlocks 63 65 = some [2, 64] ∧
    noopCount 63 65 = 1 ∧
    (2 : Nat) ≠ (65 - 1) % (63 + 1) + 1 := by
  decide

/-- The block loop consumes `m * k + 1` queued entries in `k` full blocks
of `m + 1` states (one pushed no-op per block boundary). -/
lemma blocksAux_full_blocks (m : Nat) (hm : 1 ≤ m) :
    ∀ k fuel, 1 ≤ k → k + 1 ≤ fuel →
      blocksAux m fuel (m * k + 1) (m + 1) = some (List.replicate k (m + 1)) := by
  intro k
  induction k with
  | zero => intro fuel h _; omega
  | succ k ih =>
      intro fuel _ hfuel
      rcases fuel with _ | f
      · omega
      have hle : m + 1 ≤ m * (k + 1) + 1 := by
        have := Nat.mul_le_mul_left m (show 1 ≤ k + 1 by omega)
        omega
      have hrec : m * (k + 1) + 1 - (m + 1) = m * k := by
        have hmk : m * (k + 1) = m * k + m := by ring
        omega
      rcases Nat.eq_zero_or_pos k with hk | hk
      · subst hk
        have h0 : m * (0 + 1) + 1 - (m + 1) = 0 := by
          have : m * (0 + 1) = m := by ring
          omega
        simp only [blocksAux]
        rw [if_pos hle, if_pos h0]
        rfl
      · have hmkpos : ¬ (m * k = 0) := by
          have := Nat.mul_pos (show 0 < m by omega) hk
          omega
        simp only [blocksAux]
        rw [if_pos hle, hrec, if_neg hmkpos, ih f hk (by omega)]
        rfl

/-- C7 (amended): laying out `n ≥ 1` weighted items with
`MAX_TRANSITION = m ≥ 1` never underflows the queue and produces
`noopCount m n + 1` blocks — i.e. exactly `⌊(n - 2) / m⌋` no-op routing
states are inserted when `n > m + 1` and none otherwise — whose topmost
block has `((n + noops - 1) mod (m + 1)) + 1` states (the modulus taken
after adding the no-ops) and whose remaining blocks are full; when
`n ≤ m + 1` the layout is the single block `[n]`. -/
theorem layout_blocks_eq (m n : Nat) (hm : 1 ≤ m) (hn : 1 ≤ n) :
    layoutBlocks m n =
      some (((n + noopCount m n - 1) % (m + 1) + 1) ::
        List.replicate (noopCount m n) (m + 1)) ∧
    (n ≤ m + 1 → layoutBlocks m n = some [n]) := by
  by_cases hsmall : n ≤ m + 1
  case pos =>
    have hk : noopCount m n = 0 := by simp [noopCount, hsmall]
    have hbs : (n + noopCount m n - 1) % (m + 1) + 1 = n := by
      rw [hk]
      have h1 : n + 0 - 1 = n - 1 := by omega
      rw [h1, Nat.mod_eq_of_lt (show n - 1 < m + 1 by omega)]
      omega
    have hmain : layoutBlocks m n = some [n] := by
      unfold layoutBlocks
      rw [hbs]
      simp only [blocksAux]
      rw [if_pos (le_refl n), if_pos (show n - n = 0 by omega)]
    refine ⟨?_, fun _ => hmain⟩
    rw [hmain, hbs, hk]
    rfl
  case neg =>
    push_neg at hsmall
    have hkval : noopCount m n = (n - 2) / m := by
      simp only [noopCount]
      rw [if_neg (by omega)]
    set k := (n - 2) / m with hkq
    have hdm := Nat.div_add_mod (n - 2) m
    have hmod := Nat.mod_lt (n - 2) (show 0 < m by omega)
    set P := m * k with hP
    have hPpos : 1 ≤ P := by
      rw [hP]
      have hk1 : 1 ≤ k := by
        rw [hkq]
        exact (Nat.one_le_div_iff (by omega)).mpr (by omega)
      exact Nat.mul_pos (by omega) (by omega)
    have hk1 : 1 ≤ k := by
      rw [hkq]
      exact (Nat.one_le_div_iff (by omega)).mpr (by omega)
    have hkn : k ≤ n - 2 := by
      rw [hkq]
      exact Nat.div_le_self _ _
    have hq : k * (m + 1) = P + k := by rw [hP]; ring
    have hbs : (n + k - 1) % (m + 1) + 1 = n - P := by
      have hrepr : n + k - 1 = (n - P - 1) + k * (m + 1) := by
        rw [hq]
        omega
      rw [hrepr, Nat.add_mul_mod_self_right,
        Nat.mod_eq_of_lt (show n - P - 1 < m + 1 by omega)]
      omega
    have hmain : layoutBlocks m n = some ((n - P) :: List.replicate k (m + 1)) := by
      unfold layoutBlocks
      rw [hkval, hbs]
      simp only [blocksAux]
      rw [if_pos (show n - P ≤ n by omega),
        if_neg (show ¬ (n - (n - P) = 0) by omega),
        show n - (n - P) + 1 = m * k + 1 from by rw [← hP]; omega,
        blocksAux_full_blocks m hm k n hk1 (by omega)]
      rfl
    refine ⟨?_, fun hcontra => by omega⟩
    rw [hmain, hkval, hbs]

/-- Closed-form instance of the amended C7 theorem at `m = 63`,
`n = 65`. -/
theorem layout_blocks_eq_witness :
    layoutBlocks 63 65 =
      some (((65 + noopCount 63 65 - 1) % (63 + 1) + 1) ::
        List.replicate (noopCount 63 65) (63 + 1)) :=
  (layout_blocks_eq 63 65 (by decide) (by decide)).1

/-! ## Helper lemmas for bucket packing -/

/-- Already closed buckets pass through the fold unchanged. -/
lemma foldl_bucketStep_append (B : Nat) (l : List (Bool × Nat)) :
    ∀ (bs bs' : List (List Nat)) (cur : List Nat),
      l.foldl (bucketStep B) (bs ++ bs', cur) =
        (bs ++ (l.foldl (bucketStep B) (bs', cur)).1,
         (l.foldl (bucketStep B) (bs', cur)).2) := by
  induction l with
  | nil => intro bs bs' cur; simp
  | cons fs l ih =>
      intro bs bs' cur
      simp only [List.foldl_cons]
      by_cases hc : (fs.1 = true ∨ B < cur.sum + fs.2) ∧ 0 < cur.sum
      · have h1 : bucketStep B (bs ++ bs', cur) fs = ((bs ++ bs') ++ [cur], [fs.2]) := by
          simp only [bucketStep]
          rw [if_pos hc]
        have h2 : bucketStep B (bs', cur) fs = (bs' ++ [cur], [fs.2]) := by
          simp only [bucketStep]
          rw [if_pos hc]
        rw [h1, h2, List.append_assoc]
        exact ih bs (bs' ++ [cur]) [fs.2]
      · have h1 : bucketStep B (bs ++ bs', cur) fs = (bs ++ bs', cur ++ [fs.2]) := by
          simp only [bucketStep]
          rw [if_neg hc]
        have h2 : bucketStep B (bs', cur) fs = (bs', cur ++ [fs.2]) := by
          simp only [bucketStep]
          rw [if_neg hc]
        rw [h1, h2]
        exact ih bs bs' (cur ++ [fs.2])

/-- No buffer is lost or reordered: the concatenation of all buckets plus
the current bucket equals the already-flushed content plus the incoming
buffer sizes. -/
lemma foldl_bucketStep_flatten (B : Nat) (l : List (Bool × Nat)) :
    ∀ bs cur,
      (l.foldl (bucketStep B) (bs, cur)).1.flatten ++
        (l.foldl (bucketStep B) (bs, cur)).2 =
      bs.flatten ++ cur ++ l.map Prod.snd := by
  induction l with
  | nil => intro bs cur; simp
  | cons fs l ih =>
      intro bs cur
      simp only [List.foldl_cons, List.map_cons]
      by_cases hc : (fs.1 = true ∨ B < cur.sum + fs.2) ∧ 0 < cur.sum
      · have h1 : bucketStep B (bs, cur) fs = (bs ++ [cur], [fs.2]) := by
          simp only [bucketStep]
          rw [if_pos hc]
        rw [h1, ih]
        simp
      · have h1 : bucketStep B (bs, cur) fs = (bs, cur ++ [fs.2]) := by
          simp only [bucketStep]
          rw [if_neg hc]
        rw [h1, ih]
        simp

/-- Every element of the current bucket after the fold comes from the
initial current bucket or from the input sizes. -/
lemma foldl_bucketStep_cur_mem (B : Nat) (l : List (Bool × Nat)) :
    ∀ bs cur x, x ∈ (l.foldl (bucketStep B) (bs, cur)).2 →
      x ∈ cur ∨ x ∈ l.map Prod.snd := by
  induction l with
  | nil => intro bs cur x hx; simp at hx; exact Or.inl hx
  | cons fs l ih =>
      intro bs cur x hx
      simp only [List.foldl_cons] at hx
      by_cases hc : (fs.1 = true ∨ B < cur.sum + fs.2) ∧ 0 < cur.sum
      · have h1 : bucketStep B (bs, cur) fs = (bs ++ [cur], [fs.2]) := by
          simp only [bucketStep]
          rw [if_pos hc]
        rw [h1] at hx
        rcases ih _ _ _ hx with h | h
        · simp at h
          exact Or.inr (by simp [h])
        · exact Or.inr (by simp [h])
      · have h1 : bucketStep B (bs, cur) fs = (bs, cur ++ [fs.2]) := by
          simp only [bucketStep]
          rw [if_neg hc]
        rw [h1] at hx
        rcases ih _ _ _ hx with h | h
        · rcases List.mem_append.mp h with h' | h'
          · exact Or.inl h'
          · simp at h'
            exact Or.inr (by simp [h'])
        · exact Or.inr (by simp [h])

/-- A list of positive naturals with zero sum is empty. -/
lemma eq_nil_of_sum_zero_of_pos {cur : List Nat}
    (hcur : ∀ x ∈ cur, 0 < x) (hsum : ¬ 0 < cur.sum) : cur = [] := by
  cases cur with
  | nil => rfl
  | cons a t =>
      exfalso
      have := hcur a (by simp)
      simp only [List.sum_cons] at hsum
      omega

/-- Every closed bucket and the current bucket stay well formed through
the fold. -/
lemma foldl_bucketStep_good (B : Nat) (l : List (Bool × Nat)) :
    ∀ bs cur,
      (∀ x ∈ l.map Prod.snd, 0 < x) →
      (∀ x ∈ cur, 0 < x) →
      (∀ b ∈ bs, goodBucket B b) →
      goodBucket B cur →
      ∀ b ∈ finishBuckets (l.foldl (bucketStep B) (bs, cur)), goodBucket B b := by
  induction l with
  | nil =>
      intro bs cur _ _ hbs hcur b hb
      simp only [finishBuckets, List.foldl_nil] at hb
      split at hb
      · rcases List.mem_append.mp hb with h | h
        · exact hbs b h
        · simp at h; subst h; exact hcur
      · exact hbs b hb
  | cons fs l ih =>
      intro bs cur hl hcur hbs hgood
      have hs : 0 < fs.2 := hl fs.2 (by simp)
      have hl' : ∀ x ∈ l.map Prod.snd, 0 < x := fun x hx => hl x (by simp [hx])
      simp only [List.foldl_cons]
      by_cases hc : (fs.1 = true ∨ B < cur.sum + fs.2) ∧ 0 < cur.sum
      · have h1 : bucketStep B (bs, cur) fs = (bs ++ [cur], [fs.2]) := by
          simp only [bucketStep]
          rw [if_pos hc]
        rw [h1]
        refine ih (bs ++ [cur]) [fs.2] hl' (by simpa using hs) ?_ ?_
        · intro b hb
          rcases List.mem_append.mp hb with h | h
          · exact hbs b h
          · simp at h; subst h; exact hgood
        · by_cases hB : fs.2 ≤ B
          · exact Or.inl (by simpa using hB)
          · exact Or.inr ⟨fs.2, rfl, by omega⟩
      · have h1 : bucketStep B (bs, cur) fs = (bs, cur ++ [fs.2]) := by
          simp only [bucketStep]
          rw [if_neg hc]
        rw [h1]
        refine ih bs (cur ++ [fs.2]) hl' ?_ hbs ?_
        · intro x hx
          rcases List.mem_append.mp hx with h | h
          · exact hcur x h
          · simp at h; subst h; exact hs
        · push_neg at hc
          by_cases hz : 0 < cur.sum
          · rcases Classical.em (fs.1 = true ∨ B < cur.sum + fs.2) with hor | hor
            · have := hc hor
              omega
            · push_neg at hor
              exact Or.inl (by simp [List.sum_append]; omega)
          · have hnil : cur = [] := eq_nil_of_sum_zero_of_pos hcur hz
            subst hnil
            by_cases hB : fs.2 ≤ B
            · exact Or.inl (by simpa using hB)
            · exact Or.inr ⟨fs.2, rfl, by omega⟩

/-- Splitting form of `foldl_bucketStep_append`. -/
lemma foldl_bucketStep_split (B : Nat) (l : List (Bool × Nat))
    (bs : List (List Nat)) (cur : List Nat) :
    l.foldl (bucketStep B) (bs, cur) =
      (bs ++ (l.foldl (bucketStep B) ([], cur)).1,
       (l.foldl (bucketStep B) ([], cur)).2) := by
  have h := foldl_bucketStep_append B l bs [] cur
  rwa [List.append_nil] at h

lemma withFlags_cons (g : List Nat) (gs : List (List Nat)) :
    withFlags (g :: gs) = flagFirst g ++ withFlags gs := by
  simp [withFlags]

lemma map_snd_flagFirst (g : List Nat) : (flagFirst g).map Prod.snd = g := by
  cases g with
  | nil => rfl
  | cons s t => simp [flagFirst]

lemma map_snd_withFlags (groups : List (List Nat)) :
    (withFlags groups).map Prod.snd = groups.flatten := by
  induction groups with
  | nil => rfl
  | cons g gs ih => simp [withFlags_cons, map_snd_flagFirst, ih]

lemma finishBuckets_append (a b : List (List Nat)) (cur : List Nat) :
    finishBuckets (a ++ b, cur) = a ++ finishBuckets (b, cur) := by
  simp only [finishBuckets]
  split
  · simp
  · rfl

/-- A forced first buffer of a non-empty group closes the carried-over
current bucket (if non-empty) and then proceeds as from a fresh state. -/
lemma foldl_flagFirst_start (B : Nat) (g : List Nat) (hg : g ≠ [])
    (cur : List Nat) (hcur : ∀ x ∈ cur, 0 < x) :
    (flagFirst g).foldl (bucketStep B) ([], cur) =
      ((if 0 < cur.sum then [cur] else []) ++
          ((flagFirst g).foldl (bucketStep B) ([], [])).1,
        ((flagFirst g).foldl (bucketStep B) ([], [])).2) := by
  cases g with
  | nil => exact absurd rfl hg
  | cons s t =>
      by_cases hz : 0 < cur.sum
      · have h1 : bucketStep B ([], cur) (true, s) = ([cur], [s]) := by
          simp [bucketStep, hz]
        have h2 : bucketStep B ([], ([] : List Nat)) (true, s) = ([], [s]) := by
          simp [bucketStep]
        simp only [flagFirst, List.foldl_cons, h1, h2, if_pos hz]
        have h3 := foldl_bucketStep_split B (t.map (fun x => (false, x))) [cur] [s]
        rw [h3]
      · have hnil : cur = [] := eq_nil_of_sum_zero_of_pos hcur hz
        subst hnil
        simp

/-- Processing the flagged streams of the remaining buffer kinds starting
with a carried-over current bucket first closes that bucket (at the kind
boundary) and then behaves like a fresh run. -/
lemma finish_foldl_withFlags (B : Nat) :
    ∀ (gs : List (List Nat)) (cur : List Nat),
      (∀ x ∈ cur, 0 < x) →
      (∀ g ∈ gs, ∀ x ∈ g, 0 < x) →
      finishBuckets ((withFlags gs).foldl (bucketStep B) ([], cur)) =
        (if 0 < cur.sum then [cur] else []) ++ writeBuffers B gs := by
  intro gs
  induction gs with
  | nil =>
      intro cur _ _
      simp only [withFlags, List.map_nil, List.flatten_nil, List.foldl_nil,
        finishBuckets, writeBuffers]
      split
      · simp
      · simp
  | cons g gs ih =>
      intro cur hcur hgs
      have hg : ∀ x ∈ g, 0 < x := hgs g (by simp)
      have hgs' : ∀ g' ∈ gs, ∀ x ∈ g', 0 < x := fun g' h => hgs g' (by simp [h])
      by_cases hgnil : g = []
      · subst hgnil
        have hw : writeBuffers B (([] : List Nat) :: gs) = writeBuffers B gs := by
          simp [writeBuffers, withFlags_cons, flagFirst]
        rw [hw, withFlags_cons]
        simp only [flagFirst, List.nil_append]
        exact ih cur hcur hgs'
      · rw [withFlags_cons, List.foldl_append,
          foldl_flagFirst_start B g hgnil cur hcur]
        rcases hX : (flagFirst g).foldl (bucketStep B) ([], []) with ⟨X1, X2⟩
        have hX2pos : ∀ x ∈ X2, 0 < x := by
          intro x hx
          have hmem := foldl_bucketStep_cur_mem B (flagFirst g) [] [] x
            (by rw [hX]; exact hx)
          rcases hmem with h | h
          · simp at h
          · rw [map_snd_flagFirst] at h
            exact hg x h
        rw [foldl_bucketStep_split B (withFlags gs)
          ((if 0 < cur.sum then [cur] else []) ++ X1) X2]
        rcases hW : (withFlags gs).foldl (bucketStep B) ([], X2) with ⟨W1, W2⟩
        rw [List.append_assoc, finishBuckets_append, finishBuckets_append]
        have hfin : finishBuckets (W1, W2) =
            (if 0 < X2.sum then [X2] else []) ++ writeBuffers B gs := by
          have := ih X2 hX2pos hgs'
          rw [hW] at this
          exact this
        rw [hfin]
        have hwcons : writeBuffers B (g :: gs) =
            X1 ++ ((if 0 < X2.sum then [X2] else []) ++ writeBuffers B gs) := by
          show finishBuckets ((withFlags (g :: gs)).foldl (bucketStep B) ([], [])) = _
          rw [withFlags_cons, List.foldl_append, hX,
            foldl_bucketStep_split B (withFlags gs) X1 X2, hW,
            finishBuckets_append, hfin]
        rw [hwcons]

/-- One buffer-kind group at a time: the bucket sequence splits at kind
boundaries. -/
lemma writeBuffers_cons (B : Nat) (g : List Nat) (gs : List (List Nat))
    (hg : ∀ x ∈ g, 0 < x) (hgs : ∀ g' ∈ gs, ∀ x ∈ g', 0 < x) :
    writeBuffers B (g :: gs) = writeBuffers B [g] ++ writeBuffers B gs := by
  by_cases hgnil : g = []
  · subst hgnil
    have h2 : writeBuffers B [([] : List Nat)] = [] := rfl
    rw [h2, List.nil_append]
    simp [writeBuffers, withFlags_cons, flagFirst]
  · rcases hX : (flagFirst g).foldl (bucketStep B) ([], []) with ⟨X1, X2⟩
    have hX2pos : ∀ x ∈ X2, 0 < x := by
      intro x hx
      have hmem := foldl_bucketStep_cur_mem B (flagFirst g) [] [] x
        (by rw [hX]; exact hx)
      rcases hmem with h | h
      · simp at h
      · rw [map_snd_flagFirst] at h
        exact hg x h
    rcases hW : (withFlags gs).foldl (bucketStep B) ([], X2) with ⟨W1, W2⟩
    have hfin : finishBuckets (W1, W2) =
        (if 0 < X2.sum then [X2] else []) ++ writeBuffers B gs := by
      have h := finish_foldl_withFlags B gs X2 hX2pos hgs
      rw [hW] at h
      exact h
    have hL : writeBuffers B (g :: gs) =
        X1 ++ ((if 0 < X2.sum then [X2] else []) ++ writeBuffers B gs) := by
      show finishBuckets ((withFlags (g :: gs)).foldl (bucketStep B) ([], [])) = _
      rw [withFlags_cons, List.foldl_append, hX,
        foldl_bucketStep_split B (withFlags gs) X1 X2, hW,
        finishBuckets_append, hfin]
    have hR : writeBuffers B [g] = X1 ++ (if 0 < X2.sum then [X2] else []) := by
      show finishBuckets ((withFlags [g]).foldl (bucketStep B) ([], [])) = _
      have hwf : withFlags [g] = flagFirst g := by simp [withFlags]
      rw [hwf, hX]
      simp only [finishBuckets]
      split
      · rfl
      · simp
    rw [hL, hR, List.append_assoc]

/-- Bucket formation is independent across buffer-kind groups. -/
lemma writeBuffers_group_split (B : Nat) :
    ∀ (groups : List (List Nat)), (∀ g ∈ groups, ∀ x ∈ g, 0 < x) →
      writeBuffers B groups = (groups.map (fun g => writeBuffers B [g])).flatten := by
  intro groups
  induction groups with
  | nil => intro _; rfl
  | cons g gs ih =>
      intro hpos
      have hg : ∀ x ∈ g, 0 < x := hpos g (by simp)
      have hgs : ∀ g' ∈ gs, ∀ x ∈ g', 0 < x := fun g' h => hpos g' (by simp [h])
      rw [writeBuffers_cons B g gs hg hgs, List.map_cons, List.flatten_cons,
        ih hgs]

/-- C5: for every buffer-size layout and bucket size, each emitted bucket
either fits within `bucket_size` or consists of exactly one oversized
buffer; no buffer is split or reordered (the concatenation of the buckets
is the input sequence); and bucket formation is independent across
buffer-kind groups (a new bucket starts at each kind boundary).  All
buffer sizes are positive, as produced by the encoder. -/
theorem addBuffer_bucket_invariants (B : Nat) (groups : List (List Nat))
    (hpos : ∀ g ∈ groups, ∀ x ∈ g, 0 < x) :
    (writeBuffers B groups).flatten = groups.flatten ∧
    (∀ b ∈ writeBuffers B groups, b.sum ≤ B ∨ ∃ s, b = [s] ∧ B < s) ∧
    writeBuffers B groups = (groups.map (fun g => writeBuffers B [g])).flatten := by
  refine ⟨?_, ?_, writeBuffers_group_split B groups hpos⟩
  · have h := foldl_bucketStep_flatten B (withFlags groups) [] []
    rw [map_snd_withFlags] at h
    simp only [List.flatten_nil, List.nil_append] at h
    rcases hF : (withFlags groups).foldl (bucketStep B) ([], []) with ⟨F1, F2⟩
    rw [hF] at h
    have hF2pos : ∀ x ∈ F2, 0 < x := by
      intro x hx
      have hmem := foldl_bucketStep_cur_mem B (withFlags groups) [] [] x
        (by rw [hF]; exact hx)
      rcases hmem with hmm | hmm
      · simp at hmm
      · rw [map_snd_withFlags] at hmm
        rcases List.mem_flatten.mp hmm with ⟨g, hgmem, hxg⟩
        exact hpos g hgmem x hxg
    simp only [writeBuffers, hF, finishBuckets]
    split
    case isTrue h' => simpa using h
    case isFalse h' =>
      have hF2 : F2 = [] := eq_nil_of_sum_zero_of_pos hF2pos h'
      subst hF2
      simpa using h
  · exact foldl_bucketStep_good B (withFlags groups) [] []
      (by
        rw [map_snd_withFlags]
        intro x hx
        rcases List.mem_flatten.mp hx with ⟨g, hgmem, hxg⟩
        exact hpos g hgmem x hxg)
      (by simp) (by simp) (Or.inl (by simp))

/-- Closed-form instance of the C5 theorem: bucket size 7 over kind
groups `[5, 3]` and `[10]` gives buckets `[5]`, `[3]`, `[10]`. -/
theorem addBuffer_bucket_invariants_witness :
    (writeBuffers 7 [[5, 3], [10]]).flatten = [[5, 3], [10]].flatten ∧
    (∀ b ∈ writeBuffers 7 [[5, 3], [10]],
      b.sum ≤ 7 ∨ ∃ s, b = [s] ∧ 7 < s) ∧
    writeBuffers 7 [[5, 3], [10]] =
      ([[5, 3], [10]].map (fun g => writeBuffers 7 [g])).flatten :=
  addBuffer_bucket_invariants 7 [[5, 3], [10]] (by decide)

/-- C9: with identical inputs and configuration the encoder is a pure
function of its inputs, and the only run-to-run variation — the
unspecified hash-map iteration order in which `CreateStateMachine` pushes
entries into the priority queue — cannot change the sequence of popped
entries: the tie-break on ascending `dest_index` makes `operator<` a
total order on entries, so any two permutations of the same pushes pop
identically and the construction is reproducible. -/
theorem priority_queue_pop_deterministic (l₁ l₂ : List PQEntry)
    (h : l₁.Perm l₂) : popSequence l₁ = popSequence l₂ :=
  List.eq_of_perm_of_sorted
    (((List.perm_insertionSort popsFirst l₁).trans h).trans
      (List.perm_insertionSort popsFirst l₂).symm)
    (List.sorted_insertionSort popsFirst l₁)
    (List.sorted_insertionSort popsFirst l₂)

/-- Closed-form instance of the C9 theorem: two tied entries pushed in
either order pop identically. -/
theorem priority_queue_pop_deterministic_witness :
    popSequence [(0, 5), (1, 5)] = popSequence [(1, 5), (0, 5)] :=
  priority_queue_pop_deterministic [(0, 5), (1, 5)] [(1, 5), (0, 5)] (by decide)

lemma varintEnc_small {v : Nat} (h : v < 128) : varintEnc v = [v] := by
  conv_lhs => rw [varintEnc]
  rw [dif_pos h]

lemma varintEnc_large {v : Nat} (h : ¬ v < 128) :
    varintEnc v = (128 + v % 128) :: varintEnc (v / 128) := by
  conv_lhs => rw [varintEnc]
  rw [dif_neg h]

lemma varintEnc_ne_nil (v : Nat) : varintEnc v ≠ [] := by
  by_cases h : v < 128
  · rw [varintEnc_small h]
    simp
  · rw [varintEnc_large h]
    simp

lemma varintEnc_length_pos (v : Nat) : 1 ≤ (varintEnc v).length := by
  have := varintEnc_ne_nil v
  cases h : varintEnc v with
  | nil => exact absurd h this
  | cons a t => simp

/-- Reading the canonical encoding of `v` followed by `rest` yields
`(v, rest)`, provided the byte budget suffices (and `v ≥ 1` when the
reader is mid-varint). -/
lemma readCanonVarintAux_enc (v : Nat) :
    ∀ (n : Nat) (first : Bool) (rest : List Nat),
      (varintEnc v).length ≤ n → (first = false → 1 ≤ v) →
      readCanonVarintAux n first (varintEnc v ++ rest) = some (v, rest) := by
  induction v using Nat.strong_induction_on with
  | _ v ih =>
    intro n first rest hlen hfirst
    by_cases hv : v < 128
    · rw [varintEnc_small hv] at hlen ⊢
      rcases n with _ | rem
      · simp at hlen
      · have hcond : ¬ (v = 0 ∧ first = false) := by
          intro hcon
          rcases hcon with ⟨h0, hf⟩
          have := hfirst hf
          omega
        simp only [List.cons_append, List.nil_append, readCanonVarintAux]
        rw [if_pos hv, if_neg hcond]
        simp
    · rw [varintEnc_large hv] at hlen ⊢
      rcases n with _ | rem
      · simp at hlen
      · simp only [List.cons_append, List.append_eq, readCanonVarintAux]
        rw [if_neg (by omega : ¬ 128 + v % 128 < 128)]
        have hrec := ih (v / 128) (Nat.div_lt_self (by omega) (by norm_num))
          rem false rest (by simpa using hlen)
          (fun _ => (Nat.one_le_div_iff (by norm_num)).mpr (by omega))
        rw [hrec]
        have hval : (128 + v % 128) % 128 + 128 * (v / 128) = v := by omega
        simp
        omega

/-- A successful canonical read splits the input into the canonical
encoding of the value and the remaining bytes. -/
lemma readCanonVarintAux_sound :
    ∀ (n : Nat) (bytes : List Nat) (first : Bool) (v : Nat) (rest : List Nat),
      (∀ b ∈ bytes, b < 256) →
      readCanonVarintAux n first bytes = some (v, rest) →
      bytes = varintEnc v ++ rest ∧ (varintEnc v).length ≤ n ∧
        (first = false → 1 ≤ v) := by
  intro n
  induction n with
  | zero =>
      intro bytes first v rest _ h
      simp [readCanonVarintAux] at h
  | succ rem ih =>
      intro bytes first v rest hb h
      cases bytes with
      | nil => simp [readCanonVarintAux] at h
      | cons b bs =>
          have hb256 : b < 256 := hb b (by simp)
          by_cases hlt : b < 128
          · simp only [readCanonVarintAux, if_pos hlt] at h
            by_cases hz : b = 0 ∧ first = false
            · rw [if_pos hz] at h
              simp at h
            · rw [if_neg hz] at h
              have hv : v = b ∧ rest = bs := by
                have := Option.some.inj h
                exact ⟨(Prod.mk.injEq _ _ _ _ ▸ this).1.symm,
                  (Prod.mk.injEq _ _ _ _ ▸ this).2.symm⟩
              obtain ⟨hv1, hv2⟩ := hv
              subst hv1
              subst hv2
              refine ⟨by rw [varintEnc_small hlt]; rfl,
                by rw [varintEnc_small hlt]; simp, ?_⟩
              intro hf
              by_contra hcon
              exact hz ⟨by omega, hf⟩
          · simp only [readCanonVarintAux, if_neg hlt] at h
            cases hrec : readCanonVarintAux rem false bs with
            | none =>
                rw [hrec] at h
                simp at h
            | some pr =>
                rcases pr with ⟨v', rest'⟩
                rw [hrec] at h
                simp only [Option.some.injEq, Prod.mk.injEq] at h
                obtain ⟨hv, hr⟩ := h
                obtain ⟨heq, hlen, hpos⟩ := ih bs false v' rest'
                  (fun x hx => hb x (by simp [hx])) hrec
                have hv1 : 1 ≤ v' := hpos rfl
                have hv128 : ¬ v < 128 := by omega
                have hmod : v % 128 = b % 128 := by omega
                have hdiv : v / 128 = v' := by omega
                refine ⟨?_, ?_, fun _ => by omega⟩
                · rw [varintEnc_large hv128, hmod, hdiv, heq]
                  have hbb : 128 + b % 128 = b := by omega
                  rw [hbb, hr]
                  rfl
                · rw [varintEnc_large hv128, hdiv]
                  simp only [List.length_cons]
                  omega

/-- Unfolding of one validator iteration on a non-empty input. -/
lemma isProtoLoop_succ_of_ne_nil (fuel : Nat) (groups bytes : List Nat)
    (h : bytes ≠ []) :
    isProtoLoop (fuel + 1) groups bytes =
      match readCanonicalVarint32 bytes with
      | none => false
      | some (tag, rest) =>
          if tag / 8 = 0 then false
          else
            match tag % 8 with
            | 0 =>
                match readCanonicalVarint64 rest with
                | none => false
                | some (_, rest') => isProtoLoop fuel groups rest'
            | 1 =>
                if 8 ≤ rest.length then isProtoLoop fuel groups (rest.drop 8)
                else false
            | 2 =>
                match readCanonicalVarint32 rest with
                | none => false
                | some (len, rest') =>
                    if len ≤ rest'.length then
                      isProtoLoop fuel groups (rest'.drop len)
                    else false
            | 3 => isProtoLoop fuel (tag / 8 :: groups) rest
            | 4 =>
                match groups with
                | [] => false
                | f :: groups' =>
                    if f = tag / 8 then isProtoLoop fuel groups' rest
                    else false
            | 5 =>
                if 4 ≤ rest.length then isProtoLoop fuel groups (rest.drop 4)
                else false
            | _ => false := by
  cases bytes with
  | nil => exact absurd rfl h
  | cons b bs => rfl

/-- A canonically valid byte range is accepted by the validator loop
(with any sufficient fuel). -/
lemma validProto_accepts {gs bytes : List Nat} (h : ValidProto gs bytes) :
    ∀ fuel, bytes.length < fuel → isProtoLoop fuel gs bytes = true := by
  induction h with
  | done =>
      intro fuel hf
      rcases fuel with _ | f
      · omega
      · rfl
  | varintField gs tag v rest h1 h2 hl5 hl10 _ ih =>
      intro fuel hf
      rcases fuel with _ | f
      · omega
      have htag1 := varintEnc_length_pos tag
      have hv1 := varintEnc_length_pos v
      have hne : varintEnc tag ++ (varintEnc v ++ rest) ≠ [] := by
        apply List.ne_nil_of_length_pos
        simp only [List.length_append]
        omega
      have hread : readCanonicalVarint32 (varintEnc tag ++ (varintEnc v ++ rest)) =
          some (tag, varintEnc v ++ rest) :=
        readCanonVarintAux_enc tag 5 true _ hl5 (by simp)
      have hread64 : readCanonicalVarint64 (varintEnc v ++ rest) = some (v, rest) :=
        readCanonVarintAux_enc v 10 true rest hl10 (by simp)
      have h0 : ¬ tag / 8 = 0 := by omega
      rw [isProtoLoop_succ_of_ne_nil f gs _ hne]
      simp only [hread, hread64, h0, h2, if_false, ite_false]
      apply ih
      simp only [List.length_append] at hf
      omega
  | fixed64Field gs tag payload rest h1 h2 hl5 hpl _ ih =>
      intro fuel hf
      rcases fuel with _ | f
      · omega
      have htag1 := varintEnc_length_pos tag
      have hne : varintEnc tag ++ (payload ++ rest) ≠ [] := by
        apply List.ne_nil_of_length_pos
        simp only [List.length_append]
        omega
      have hread : readCanonicalVarint32 (varintEnc tag ++ (payload ++ rest)) =
          some (tag, payload ++ rest) :=
        readCanonVarintAux_enc tag 5 true _ hl5 (by simp)
      have h0 : ¬ tag / 8 = 0 := by omega
      have hle : 8 ≤ (payload ++ rest).length := by
        simp only [List.length_append]
        omega
      have hdrop : (payload ++ rest).drop 8 = rest := by
        rw [← hpl]
        exact List.drop_left _ _
      rw [isProtoLoop_succ_of_ne_nil f gs _ hne]
      simp only [hread, h0, h2, hle, hdrop, if_false, ite_false, if_true, ite_true]
      apply ih
      simp only [List.length_append] at hf
      omega
  | lengthDelimitedField gs tag payload rest h1 h2 hl5 hlenc _ ih =>
      intro fuel hf
      rcases fuel with _ | f
      · omega
      have htag1 := varintEnc_length_pos tag
      have hlen1 := varintEnc_length_pos payload.length
      have hne : varintEnc tag ++ (varintEnc payload.length ++ (payload ++ rest)) ≠ [] := by
        apply List.ne_nil_of_length_pos
        simp only [List.length_append]
        omega
      have hread : readCanonicalVarint32
          (varintEnc tag ++ (varintEnc payload.length ++ (payload ++ rest))) =
          some (tag, varintEnc payload.length ++ (payload ++ rest)) :=
        readCanonVarintAux_enc tag 5 true _ hl5 (by simp)
      have hreadLen : readCanonicalVarint32 (varintEnc payload.length ++ (payload ++ rest)) =
          some (payload.length, payload ++ rest) :=
        readCanonVarintAux_enc payload.length 5 true _ hlenc (by simp)
      have h0 : ¬ tag / 8 = 0 := by omega
      have hle : payload.length ≤ (payload ++ rest).length := by
        simp only [List.length_append]
        omega
      have hdrop : (payload ++ rest).drop payload.length = rest := List.drop_left _ _
      rw [isProtoLoop_succ_of_ne_nil f gs _ hne]
      simp only [hread, hreadLen, h0, h2, hle, hdrop, if_false, ite_false,
        if_true, ite_true]
      apply ih
      simp only [List.length_append] at hf
      omega
  | startGroupField gs tag rest h1 h2 hl5 _ ih =>
      intro fuel hf
      rcases fuel with _ | f
      · omega
      have htag1 := varintEnc_length_pos tag
      have hne : varintEnc tag ++ rest ≠ [] := by
        apply List.ne_nil_of_length_pos
        simp only [List.length_append]
        omega
      have hread : readCanonicalVarint32 (varintEnc tag ++ rest) = some (tag, rest) :=
        readCanonVarintAux_enc tag 5 true _ hl5 (by simp)
      have h0 : ¬ tag / 8 = 0 := by omega
      rw [isProtoLoop_succ_of_ne_nil f gs _ hne]
      simp only [hread, h0, h2, if_false, ite_false]
      apply ih
      simp only [List.length_append] at hf
      omega
  | endGroupField gs tag rest h1 h2 hl5 _ ih =>
      intro fuel hf
      rcases fuel with _ | f
      · omega
      have htag1 := varintEnc_length_pos tag
      have hne : varintEnc tag ++ rest ≠ [] := by
        apply List.ne_nil_of_length_pos
        simp only [List.length_append]
        omega
      have hread : readCanonicalVarint32 (varintEnc tag ++ rest) = some (tag, rest) :=
        readCanonVarintAux_enc tag 5 true _ hl5 (by simp)
      have h0 : ¬ tag / 8 = 0 := by omega
      rw [isProtoLoop_succ_of_ne_nil f (tag / 8 :: gs) _ hne]
      simp only [hread, h0, h2, if_false, ite_false, if_pos rfl]
      apply ih
      simp only [List.length_append] at hf
      omega
  | fixed32Field gs tag payload rest h1 h2 hl5 hpl _ ih =>
      intro fuel hf
      rcases fuel with _ | f
      · omega
      have htag1 := varintEnc_length_pos tag
      have hne : varintEnc tag ++ (payload ++ rest) ≠ [] := by
        apply List.ne_nil_of_length_pos
        simp only [List.length_append]
        omega
      have hread : readCanonicalVarint32 (varintEnc tag ++ (payload ++ rest)) =
          some (tag, payload ++ rest) :=
        readCanonVarintAux_enc tag 5 true _ hl5 (by simp)
      have h0 : ¬ tag / 8 = 0 := by omega
      have hle : 4 ≤ (payload ++ rest).length := by
        simp only [List.length_append]
        omega
      have hdrop : (payload ++ rest).drop 4 = rest := by
        rw [← hpl]
        exact List.drop_left _ _
      rw [isProtoLoop_succ_of_ne_nil f gs _ hne]
      simp only [hread, h0, h2, hle, hdrop, if_false, ite_false, if_true, ite_true]
      apply ih
      simp only [List.length_append] at hf
      omega

/-- A byte range accepted by the validator loop is canonically valid. -/
lemma isProtoLoop_valid :
    ∀ (L : Nat) (bytes : List Nat), bytes.length ≤ L →
      ∀ (gs : List Nat) (fuel : Nat), bytes.length < fuel →
        (∀ b ∈ bytes, b < 256) →
        isProtoLoop fuel gs bytes = true → ValidProto gs bytes := by
  intro L
  induction L with
  | zero =>
      intro bytes hL gs fuel hfuel _ hloop
      have hnil : bytes = [] := List.eq_nil_of_length_eq_zero (by omega)
      subst hnil
      rcases fuel with _ | f
      · omega
      · have : gs = [] := by simpa [isProtoLoop] using hloop
        subst this
        exact ValidProto.done
  | succ L ihL =>
      intro bytes hL gs fuel hfuel hb hloop
      cases bytes with
      | nil =>
          rcases fuel with _ | f
          · omega
          · have : gs = [] := by simpa [isProtoLoop] using hloop
            subst this
            exact ValidProto.done
      | cons b bs =>
          rcases fuel with _ | f
          · omega
          rw [isProtoLoop_succ_of_ne_nil f gs _ (by simp)] at hloop
          cases hread : readCanonicalVarint32 (b :: bs) with
          | none =>
              rw [hread] at hloop
              simp at hloop
          | some pr =>
              rcases pr with ⟨tag, rest⟩
              rw [hread] at hloop
              obtain ⟨hsplit, hlen5, -⟩ :=
                readCanonVarintAux_sound 5 (b :: bs) true tag rest hb hread
              have htag1 := varintEnc_length_pos tag
              have hsplitlen : (b :: bs).length = (varintEnc tag).length + rest.length := by
                rw [hsplit, List.length_append]
              have hrest256 : ∀ x ∈ rest, x < 256 := by
                intro x hx
                apply hb
                rw [hsplit]
                exact List.mem_append_right _ hx
              by_cases h0 : tag / 8 = 0
              · simp only [h0, if_pos, ite_true] at hloop
                simp at hloop
              have h1 : 1 ≤ tag / 8 := by omega
              simp only [if_neg h0, ite_false] at hloop
              have h8lt : tag % 8 < 8 := Nat.mod_lt _ (by norm_num)
              set r := tag % 8 with hr
              interval_cases r
              · -- varint
                cases hread64 : readCanonicalVarint64 rest with
                | none =>
                    rw [hread64] at hloop
                    simp at hloop
                | some pr64 =>
                    rcases pr64 with ⟨v, rest'⟩
                    rw [hread64] at hloop
                    simp only [] at hloop
                    obtain ⟨hsplit64, hlen10, -⟩ :=
                      readCanonVarintAux_sound 10 rest true v rest' hrest256 hread64
                    have hv1 := varintEnc_length_pos v
                    have hlen64 : rest.length = (varintEnc v).length + rest'.length := by
                      rw [hsplit64, List.length_append]
                    have hvalid : ValidProto gs rest' := by
                      refine ihL rest' (by omega) gs f (by omega) ?_ hloop
                      intro x hx
                      apply hrest256
                      rw [hsplit64]
                      exact List.mem_append_right _ hx
                    have := ValidProto.varintField gs tag v rest' h1 (by omega)
                      hlen5 hlen10 hvalid
                    rw [hsplit, hsplit64]
                    exact this
              · -- fixed64
                by_cases hle : 8 ≤ rest.length
                · simp only [hle, if_true, ite_true] at hloop
                  have hvalid : ValidProto gs (rest.drop 8) := by
                    refine ihL (rest.drop 8) (by
                      simp only [List.length_drop]
                      omega) gs f (by simp only [List.length_drop]; omega) ?_ hloop
                    intro x hx
                    exact hrest256 x (List.mem_of_mem_drop hx)
                  have := ValidProto.fixed64Field gs tag (rest.take 8) (rest.drop 8)
                    h1 (by omega) hlen5 (by simp [List.length_take]; omega) hvalid
                  rw [hsplit, ← List.take_append_drop 8 rest]
                  simpa using this
                · simp only [hle, if_false, ite_false] at hloop
                  simp at hloop
              · -- length-delimited
                cases hreadLen : readCanonicalVarint32 rest with
                | none =>
                    rw [hreadLen] at hloop
                    simp at hloop
                | some prl =>
                    rcases prl with ⟨len, rest'⟩
                    rw [hreadLen] at hloop
                    simp only [] at hloop
                    obtain ⟨hsplitLen, hlenc, -⟩ :=
                      readCanonVarintAux_sound 5 rest true len rest' hrest256 hreadLen
                    have hlenc1 := varintEnc_length_pos len
                    have hrest'256 : ∀ x ∈ rest', x < 256 := by
                      intro x hx
                      apply hrest256
                      rw [hsplitLen]
                      exact List.mem_append_right _ hx
                    by_cases hle : len ≤ rest'.length
                    · simp only [hle, if_true, ite_true] at hloop
                      have hvalid : ValidProto gs (rest'.drop len) := by
                        refine ihL (rest'.drop len) (by
                          rw [hsplitLen, List.length_append] at hsplitlen
                          simp only [List.length_drop]
                          omega) gs f (by
                            rw [hsplitLen, List.length_append] at hsplitlen
                            simp only [List.length_drop]
                            omega) ?_ hloop
                        intro x hx
                        exact hrest'256 x (List.mem_of_mem_drop hx)
                      have hpay : (rest'.take len).length = len := by
                        simp [List.length_take]
                        omega
                      have := ValidProto.lengthDelimitedField gs tag
                        (rest'.take len) (rest'.drop len) h1 (by omega) hlen5
                        (by rw [hpay]; exact hlenc) hvalid
                      have hpay' : varintEnc (rest'.take len).length = varintEnc len := by
                        rw [hpay]
                      rw [hpay'] at this
                      rw [hsplit, hsplitLen, ← List.take_append_drop len rest']
                      exact this
                    · simp only [hle, if_false, ite_false] at hloop
                      simp at hloop
              · -- start group
                have hvalid : ValidProto (tag / 8 :: gs) rest := by
                  refine ihL rest (by omega) (tag / 8 :: gs) f (by omega)
                    hrest256 hloop
                rw [hsplit]
                exact ValidProto.startGroupField gs tag rest h1 (by omega) hlen5 hvalid
              · -- end group
                cases gs with
                | nil => simp at hloop
                | cons g gs' =>
                    by_cases hg : g = tag / 8
                    · simp only [hg, if_pos rfl, ite_true] at hloop
                      have hvalid : ValidProto gs' rest := by
                        refine ihL rest (by omega) gs' f (by omega) hrest256 hloop
                      rw [hsplit, hg]
                      exact ValidProto.endGroupField gs' tag rest h1 (by omega)
                        hlen5 hvalid
                    · simp only [hg, if_false, ite_false] at hloop
                      simp at hloop
              · -- fixed32
                by_cases hle : 4 ≤ rest.length
                · simp only [hle, if_true, ite_true] at hloop
                  have hvalid : ValidProto gs (rest.drop 4) := by
                    refine ihL (rest.drop 4) (by
                      simp only [List.length_drop]
                      omega) gs f (by simp only [List.length_drop]; omega) ?_ hloop
                    intro x hx
                    exact hrest256 x (List.mem_of_mem_drop hx)
                  have := ValidProto.fixed32Field gs tag (rest.take 4) (rest.drop 4)
                    h1 (by omega) hlen5 (by simp [List.length_take]; omega) hvalid
                  rw [hsplit, ← List.take_append_drop 4 rest]
                  simpa using this
                · simp only [hle, if_false, ite_false] at hloop
                  simp at hloop
              · -- wire type 6
                simp at hloop
              · -- wire type 7
                simp at hloop

/-- C6: `IsProtoMessage` accepts a byte range if and only if it conforms
to the canonical-protobuf grammar `ValidProto` with an empty group stack:
minimal canonical varints throughout, field numbers at least 1,
length-delimited payloads skippable by their exact declared count,
only known wire types, and matching group nesting with an empty stack at
the end. -/
theorem IsProtoMessage_iff_validProto (bytes : List Nat)
    (hb : ∀ b ∈ bytes, b < 256) :
    IsProtoMessage bytes = true ↔ ValidProto [] bytes := by
  constructor
  · intro h
    exact isProtoLoop_valid bytes.length bytes (le_refl _) [] (bytes.length + 1)
      (by omega) hb h
  · intro h
    exact validProto_accepts h (bytes.length + 1) (by omega)

/-- Closed-form instance of the C6 theorem: the two-byte record
`[0x08, 0x07]` (field 1, varint 7) is canonically valid, while the
classic non-canonical varint `[0x08, 0x87, 0x00]` is rejected. -/
theorem IsProtoMessage_iff_validProto_witness :
    ValidProto [] [8, 7] ∧ IsProtoMessage [135, 0] = false :=
  ⟨(IsProtoMessage_iff_validProto [8, 7] (by decide)).mp (by decide),
   by decide⟩

/-! ## Helper lemmas: ingestion never raises resource-exhausted errors
except at the two limit checks -/

lemma getNode_fst_lastError (st : EncoderState) (nid : NodeId) :
    (getNode st nid).1.lastError = st.lastError := by
  unfold getNode
  split <;> rfl

lemma getPosInTagsList_fst_lastError (st : EncoderState) (nid : NodeId)
    (s : Nat) : (getPosInTagsList st nid s).1.lastError = st.lastError := by
  unfold getPosInTagsList
  split
  · rfl
  · dsimp only
    split <;> rfl

lemma pushTag_lastError (st : EncoderState) (nid : NodeId) (s : Nat) :
    (pushTag st nid s).lastError = st.lastError := by
  unfold pushTag
  simpa using getPosInTagsList_fst_lastError st nid s

lemma setData_lastError (st : EncoderState) (t : BufferType)
    (l : List (NodeId × List Nat)) : (setData st t l).lastError = st.lastError := by
  cases t <;> rfl

lemma getBuffer_lastError (st : EncoderState) (nid : NodeId) (t : BufferType) :
    (getBuffer st nid t).lastError = st.lastError := by
  unfold getBuffer
  split
  · rfl
  · split
    · rfl
    · simpa using setData_lastError st t (getData st t ++ [(nid, [])])

lemma writeToBuffer_lastError (st : EncoderState) (nid : NodeId)
    (t : BufferType) (bytes : List Nat) :
    (writeToBuffer st nid t bytes).lastError = st.lastError := by
  unfold writeToBuffer
  rw [setData_lastError, getBuffer_lastError]

/-- `AddMessage` never raises a resource-exhausted error: its only
failures are assertion-guarded dead branches and writer failures. -/
lemma addMessage_lastError_ne_RE :
    ∀ (fuel : Nat) (st : EncoderState) (bytes : List Nat) (parent depth : Nat),
      st.lastError ≠ some EncError.resourceExhausted →
      (addMessage fuel st bytes parent depth).2.lastError ≠
        some EncError.resourceExhausted := by
  intro fuel
  induction fuel with
  | zero =>
      intro st bytes parent depth h
      simpa [addMessage] using h
  | succ fuel ih =>
      intro st bytes parent depth h
      cases bytes with
      | nil => simpa [addMessage] using h
      | cons b bs =>
          cases hread : readVarintRaw 5 (b :: bs) with
          | none => simpa [addMessage, hread] using h
          | some pr =>
              rcases pr with ⟨tagRaw, rest⟩
              have hnode : (getNode st (parent, varintValue tagRaw)).1.lastError =
                  st.lastError := getNode_fst_lastError _ _
              have h1 : (getNode st (parent, varintValue tagRaw)).1.lastError ≠
                  some EncError.resourceExhausted := by rw [hnode]; exact h
              have hpushed : ∀ s : Nat,
                  (pushTag (getNode st (parent, varintValue tagRaw)).1
                    (parent, varintValue tagRaw) s).lastError ≠
                    some EncError.resourceExhausted := by
                intro s
                rw [pushTag_lastError, hnode]
                exact h
              have hwrote : ∀ (s : Nat) (t : BufferType) (bts : List Nat),
                  (writeToBuffer (pushTag (getNode st (parent, varintValue tagRaw)).1
                      (parent, varintValue tagRaw) s)
                    (parent, varintValue tagRaw) t bts).lastError ≠
                    some EncError.resourceExhausted := by
                intro s t bts
                rw [writeToBuffer_lastError, pushTag_lastError, hnode]
                exact h
              have hcases : varintValue tagRaw % 8 = 0 ∨ varintValue tagRaw % 8 = 1 ∨
                  varintValue tagRaw % 8 = 2 ∨ varintValue tagRaw % 8 = 3 ∨
                  varintValue tagRaw % 8 = 4 ∨ varintValue tagRaw % 8 = 5 ∨
                  varintValue tagRaw % 8 = 6 ∨ varintValue tagRaw % 8 = 7 := by
                omega
              rcases hcases with hmod | hmod | hmod | hmod | hmod | hmod | hmod | hmod
              · -- varint
                cases hval : readVarintRaw 10 rest with
                | none => simpa [addMessage, hread, hmod, hval] using h1
                | some prv =>
                    rcases prv with ⟨valRaw, rest'⟩
                    simp only [addMessage, hread, hmod, hval]
                    split
                    · exact ih _ _ _ _ (hpushed _)
                    · exact ih _ _ _ _ (hwrote _ _ _)
              · -- fixed64
                simp only [addMessage, hread, hmod]
                split
                · exact ih _ _ _ _ (hwrote _ _ _)
                · simp [failWriter]
              · -- length-delimited
                cases hlen : readVarintRaw 5 rest with
                | none => simpa [addMessage, hread, hmod, hlen] using h1
                | some prl =>
                    rcases prl with ⟨lenRaw, rest2⟩
                    simp only [addMessage, hread, hmod, hlen]
                    split
                    · have hst3 : ((getPosInTagsList
                          (pushTag (getNode st (parent, varintValue tagRaw)).1
                            (parent, varintValue tagRaw)
                            kLengthDelimitedStartOfSubmessage)
                          (parent, varintValue tagRaw)
                          kLengthDelimitedEndOfSubmessage).1).lastError ≠
                          some EncError.resourceExhausted := by
                        rw [getPosInTagsList_fst_lastError, pushTag_lastError, hnode]
                        exact h
                      have hsub := ih ((getPosInTagsList
                          (pushTag (getNode st (parent, varintValue tagRaw)).1
                            (parent, varintValue tagRaw)
                            kLengthDelimitedStartOfSubmessage)
                          (parent, varintValue tagRaw)
                          kLengthDelimitedEndOfSubmessage).1)
                        (rest2.take (varintValue lenRaw))
                        ((getNode st (parent, varintValue tagRaw)).2.messageId)
                        (depth + 1) hst3
                      rcases hres : addMessage fuel
                          ((getPosInTagsList
                            (pushTag (getNode st (parent, varintValue tagRaw)).1
                              (parent, varintValue tagRaw)
                              kLengthDelimitedStartOfSubmessage)
                            (parent, varintValue tagRaw)
                            kLengthDelimitedEndOfSubmessage).1)
                          (rest2.take (varintValue lenRaw))
                          ((getNode st (parent, varintValue tagRaw)).2.messageId)
                          (depth + 1) with ⟨ok4, st4⟩
                      rw [hres] at hsub
                      cases ok4
                      · simpa using hsub
                      · exact ih _ _ _ _ (by simpa using hsub)
                    · split
                      · exact ih _ _ _ _ (hwrote _ _ _)
                      · simp [failWriter]
              · -- start group
                simp only [addMessage, hread, hmod]
                exact ih _ _ _ _ (hpushed kTrivial)
              · -- end group
                cases hstack : (getNode st (parent, varintValue tagRaw)).1.groupStack with
                | nil => simpa [addMessage, hread, hmod, hstack] using h1
                | cons p stack' =>
                    simp only [addMessage, hread, hmod, hstack]
                    exact ih _ _ _ _ (hpushed kTrivial)
              · -- fixed32
                simp only [addMessage, hread, hmod]
                split
                · exact ih _ _ _ _ (hwrote _ _ _)
                · simp [failWriter]
              · simpa [addMessage, hread, hmod] using h1
              · simpa [addMessage, hread, hmod] using h1

/-- C8: `add_record` fails with a resource-exhausted error exactly when
the accepted record count has reached the limit or the record's size
would overflow the 64-bit cumulative decoded size; after such a failure
the encoder is unhealthy, every subsequent `add_record` returns `false`
immediately with the state unchanged, and `EncodeAndClose` returns
`false` without writing anything to the destination. -/
theorem addRecord_resource_exhausted (maxRecords : Nat) (st : EncoderState)
    (record : List Nat) (hhealthy : st.healthy = true)
    (hclean : st.lastError = none) :
    (((addRecordInternal maxRecords st record).1 = false ∧
        (addRecordInternal maxRecords st record).2.lastError =
          some EncError.resourceExhausted) ↔
      (st.numRecords = maxRecords ∨
        2 ^ 64 - 1 - st.decodedDataSize < record.length)) ∧
    ((st.numRecords = maxRecords ∨
        2 ^ 64 - 1 - st.decodedDataSize < record.length) →
      (addRecordInternal maxRecords st record).2.healthy = false ∧
      (∀ r2, addRecordInternal maxRecords
          (addRecordInternal maxRecords st record).2 r2 =
        (false, (addRecordInternal maxRecords st record).2)) ∧
      (∀ rest dest,
        encodeAndCloseInternal rest (addRecordInternal maxRecords st record).2
          dest = (false, dest))) := by
  have hne : ¬ st.healthy = false := by
    rw [hhealthy]
    simp
  by_cases h1 : st.numRecords = maxRecords
  · have hres : addRecordInternal maxRecords st record =
        (false,
          { st with
              healthy := false,
              lastError := some EncError.resourceExhausted }) := by
      unfold addRecordInternal
      rw [if_neg hne, if_pos h1]
    refine ⟨⟨fun _ => Or.inl h1, fun _ => by rw [hres]; exact ⟨rfl, rfl⟩⟩, ?_⟩
    intro _
    rw [hres]
    refine ⟨rfl, ?_, ?_⟩
    · intro r2
      unfold addRecordInternal
      rw [if_pos rfl]
    · intro rest dest
      unfold encodeAndCloseInternal
      rw [if_pos rfl]
  · by_cases h2 : 2 ^ 64 - 1 - st.decodedDataSize < record.length
    · have hres : addRecordInternal maxRecords st record =
          (false,
            { st with
                healthy := false,
                lastError := some EncError.resourceExhausted }) := by
        unfold addRecordInternal
        rw [if_neg hne, if_neg h1, if_pos h2]
      refine ⟨⟨fun _ => Or.inr h2, fun _ => by rw [hres]; exact ⟨rfl, rfl⟩⟩, ?_⟩
      intro _
      rw [hres]
      refine ⟨rfl, ?_, ?_⟩
      · intro r2
        unfold addRecordInternal
        rw [if_pos rfl]
      · intro rest dest
        unfold encodeAndCloseInternal
        rw [if_pos rfl]
    · refine ⟨⟨?_, ?_⟩, ?_⟩
      · rintro ⟨hok, herr⟩
        exfalso
        unfold addRecordInternal at herr
        rw [if_neg hne, if_neg h1, if_neg h2] at herr
        by_cases hproto : IsProtoMessage record = true
        · rw [if_pos hproto] at herr
          exact addMessage_lastError_ne_RE _ _ _ _ _
            (by
              rw [pushTag_lastError, getNode_fst_lastError]
              simp [hclean]) herr
        · rw [if_neg hproto] at herr
          simp [writeToBuffer_lastError, pushTag_lastError,
            getNode_fst_lastError, hclean] at herr
      · rintro (hl | hl)
        · exact absurd hl h1
        · exact absurd hl h2
      · rintro (hl | hl)
        · exact absurd hl h1
        · exact absurd hl h2

/-- Closed-form instance of the C8 theorem: with the record limit 0
already reached, adding a record fails with a resource-exhausted
error. -/
theorem addRecord_resource_exhausted_witness :
    (addRecordInternal 0 initState [5]).1 = false ∧
    (addRecordInternal 0 initState [5]).2.lastError =
      some EncError.resourceExhausted :=
  (addRecord_resource_exhausted 0 initState [5] rfl rfl).1.mpr (Or.inl rfl)

/-- C10: a limit failure of `add_record` leaves all accumulated encoder
state unchanged: both limit checks precede every mutation, so
`num_records_`, `decoded_data_size_`, `encoded_tags_`, `tags_list_`, the
node registry, `next_message_id_`, the group stack, every value buffer
and the non-proto-lengths buffer are exactly as before the call. -/
theorem addRecord_limit_failure_preserves_state (maxRecords : Nat)
    (st : EncoderState) (record : List Nat) (hhealthy : st.healthy = true)
    (hlim : st.numRecords = maxRecords ∨
      2 ^ 64 - 1 - st.decodedDataSize < record.length) :
    (addRecordInternal maxRecords st record).1 = false ∧
    (addRecordInternal maxRecords st record).2.numRecords = st.numRecords ∧
    (addRecordInternal maxRecords st record).2.decodedDataSize =
      st.decodedDataSize ∧
    (addRecordInternal maxRecords st record).2.encodedTags = st.encodedTags ∧
    (addRecordInternal maxRecords st record).2.tagsList = st.tagsList ∧
    (addRecordInternal maxRecords st record).2.messageNodes =
      st.messageNodes ∧
    (addRecordInternal maxRecords st record).2.nextMessageId =
      st.nextMessageId ∧
    (addRecordInternal maxRecords st record).2.groupStack = st.groupStack ∧
    (addRecordInternal maxRecords st record).2.dataVarint = st.dataVarint ∧
    (addRecordInternal maxRecords st record).2.dataFixed32 = st.dataFixed32 ∧
    (addRecordInternal maxRecords st record).2.dataFixed64 = st.dataFixed64 ∧
    (addRecordInternal maxRecords st record).2.dataString = st.dataString ∧
    (addRecordInternal maxRecords st record).2.dataNonProto =
      st.dataNonProto ∧
    (addRecordInternal maxRecords st record).2.nonprotoLengths =
      st.nonprotoLengths := by
  have hne : ¬ st.healthy = false := by
    rw [hhealthy]
    simp
  by_cases h1 : st.numRecords = maxRecords
  · have hres : addRecordInternal maxRecords st record =
        (false,
          { st with
              healthy := false,
              lastError := some EncError.resourceExhausted }) := by
      unfold addRecordInternal
      rw [if_neg hne, if_pos h1]
    simp [hres]
  · have h2 : 2 ^ 64 - 1 - st.decodedDataSize < record.length :=
      hlim.resolve_left h1
    have hres : addRecordInternal maxRecords st record =
        (false,
          { st with
              healthy := false,
              lastError := some EncError.resourceExhausted }) := by
      unfold addRecordInternal
      rw [if_neg hne, if_neg h1, if_pos h2]
    simp [hres]

/-- Closed-form instance of the C10 theorem at the record limit 0. -/
theorem addRecord_limit_failure_preserves_state_witness :
    (addRecordInternal 0 initState [5]).1 = false ∧
    (addRecordInternal 0 initState [5]).2.numRecords = initState.numRecords ∧
    (addRecordInternal 0 initState [5]).2.decodedDataSize =
      initState.decodedDataSize ∧
    (addRecordInternal 0 initState [5]).2.encodedTags =
      initState.encodedTags ∧
    (addRecordInternal 0 initState [5]).2.tagsList = initState.tagsList ∧
    (addRecordInternal 0 initState [5]).2.messageNodes =
      initState.messageNodes ∧
    (addRecordInternal 0 initState [5]).2.nextMessageId =
      initState.nextMessageId ∧
    (addRecordInternal 0 initState [5]).2.groupStack =
      initState.groupStack ∧
    (addRecordInternal 0 initState [5]).2.dataVarint =
      initState.dataVarint ∧
    (addRecordInternal 0 initState [5]).2.dataFixed32 =
      initState.dataFixed32 ∧
    (addRecordInternal 0 initState [5]).2.dataFixed64 =
      initState.dataFixed64 ∧
    (addRecordInternal 0 initState [5]).2.dataString =
      initState.dataString ∧
    (addRecordInternal 0 initState [5]).2.dataNonProto =
      initState.dataNonProto ∧
    (addRecordInternal 0 initState [5]).2.nonprotoLengths =
      initState.nonprotoLengths :=
  addRecord_limit_failure_preserves_state 0 initState [5] rfl (Or.inl rfl)

end Riegeli

